import Mathlib

/-!
Verification of the AI-Project-Timeline-and-Milestone-Generator backend
(`app.py`).  The development shallowly embeds the request-generation and
recovery flow: prompt construction, the primary/fallback model calls of
`generate_gemini_timeline`, markdown code-fence stripping, JSON parsing
(a model of Python's `json.loads`/`json.dumps`), and the `/generate` and
`/project/<id>` route handlers with their persistence collaborator.

Strings are embedded as `List Char`.  Python's substring test `sep in s`
and `s.split(sep)` are modelled through `findSplit`, which locates the
first occurrence of a (non-empty) separator.
-/

/-- The backtick character (written by code to stay printable-safe). -/
def btk : Char := '\x60'

/-- `findSplit sep s` locates the first occurrence of `sep` in `s`,
returning the part strictly before it and the part strictly after it.
`none` means `sep` does not occur (matching Python's `sep in s` being
`False`).  Only used with non-empty separators, as in the source. -/
def findSplit (sep : List Char) : List Char → Option (List Char × List Char)
  | [] => none
  | c :: cs =>
    if sep.isPrefixOf (c :: cs) then some ([], (c :: cs).drop sep.length)
    else
      match findSplit sep cs with
      | some (b, a) => some (c :: b, a)
      | none => none

/-- Python's `s.split(sep)[0]`: the segment before the first occurrence of
`sep`, or all of `s` when `sep` does not occur. -/
def splitIdx0 (sep s : List Char) : List Char :=
  match findSplit sep s with
  | some p => p.1
  | none => s

/-- The opening tag `"```json"` tested by `if "```json" in text`. -/
def jsonTag : List Char := [btk, btk, btk, 'j', 's', 'o', 'n']

/-- The plain fence `"```"` tested by `elif "```" in text`. -/
def fence3 : List Char := [btk, btk, btk]

/-- The fence-stripping step of `generate_gemini_timeline` (app.py lines
136-140), verbatim:
if `"```json" in text` then `text.split("```json")[1].split("```")[0]`,
elif `"```" in text` then `text.split("```")[1].split("```")[0]`,
else the raw text.  (`split(sep)[1]` is the segment between the first and
second occurrence of `sep`, i.e. `splitIdx0 sep` of the part after the
first occurrence.) -/
def extractText (text : List Char) : List Char :=
  match findSplit jsonTag text with
  | some p => splitIdx0 fence3 (splitIdx0 jsonTag p.2)
  | none =>
    match findSplit fence3 text with
    | some p => splitIdx0 fence3 (splitIdx0 fence3 p.2)
    | none => text

/-! ### Characterization of `findSplit` -/

theorem findSplit_sound {sep : List Char} :
    ∀ {s x y : List Char}, findSplit sep s = some (x, y) → s = x ++ sep ++ y := by
  intro s
  induction s with
  | nil => intro x y h; exact Option.noConfusion h
  | cons c cs ih =>
    intro x y h
    by_cases hp : sep.isPrefixOf (c :: cs)
    · simp only [findSplit, hp, if_true, Option.some.injEq, Prod.mk.injEq] at h
      obtain ⟨rfl, rfl⟩ := h
      have hpre := List.isPrefixOf_iff_prefix.mp hp
      obtain ⟨t, ht⟩ := hpre
      rw [List.nil_append, ← ht, List.drop_left' rfl]
    · simp only [findSplit, hp, if_false] at h
      rcases hfs : findSplit sep cs with _ | ⟨b, a⟩ <;> rw [hfs] at h
      · exact Option.noConfusion h
      · simp only [Option.some.injEq, Prod.mk.injEq] at h
        obtain ⟨rfl, rfl⟩ := h
        rw [ih hfs]
        rfl

theorem findSplit_none_of_not_inf {sep : List Char} :
    ∀ {s : List Char}, ¬ sep <:+: s → findSplit sep s = none := by
  intro s
  induction s with
  | nil => intro _; rfl
  | cons c cs ih =>
    intro h
    have hp : ¬ sep.isPrefixOf (c :: cs) := by
      intro hb
      exact h (List.isPrefixOf_iff_prefix.mp hb).isInfix
    have hcs : ¬ sep <:+: cs := fun h2 => h (List.infix_cons h2)
    simp [findSplit, hp, ih hcs]

theorem not_infix_of_findSplit_none {sep : List Char} (hsep : sep ≠ []) :
    ∀ {s : List Char}, findSplit sep s = none → ¬ sep <:+: s := by
  intro s
  induction s with
  | nil =>
    intro _ h
    exact hsep (List.eq_nil_of_infix_nil h)
  | cons c cs ih =>
    intro h hinf
    by_cases hp : sep.isPrefixOf (c :: cs)
    · simp only [findSplit, hp, if_true] at h
      exact Option.noConfusion h
    · simp only [findSplit, hp, if_false] at h
      rcases hfs : findSplit sep cs with _ | ⟨b, a⟩ <;> rw [hfs] at h
      · rcases List.infix_cons_iff.mp hinf with h1 | h2
        · exact hp (List.isPrefixOf_iff_prefix.mpr h1)
        · exact ih hfs h2
      · exact Option.noConfusion h

/-- The part before the located occurrence contains no earlier occurrence:
`sep` is not an infix of `x ++ sep.dropLast` (which covers every occurrence
starting strictly before the located one). -/
theorem findSplit_minimal {sep : List Char} (hsep : sep ≠ []) :
    ∀ {s x y : List Char}, findSplit sep s = some (x, y) →
      ¬ sep <:+: (x ++ sep.dropLast) := by
  intro s
  induction s with
  | nil => intro x y h; exact Option.noConfusion h
  | cons c cs ih =>
    intro x y h
    by_cases hp : sep.isPrefixOf (c :: cs)
    · simp only [findSplit, hp, if_true, Option.some.injEq, Prod.mk.injEq] at h
      obtain ⟨rfl, rfl⟩ := h
      intro hinf
      have hlen := hinf.length_le
      have hpos : 0 < sep.length := List.length_pos.mpr hsep
      simp only [List.nil_append, List.length_dropLast] at hlen
      omega
    · simp only [findSplit, hp, if_false] at h
      rcases hfs : findSplit sep cs with _ | ⟨b, a⟩ <;> rw [hfs] at h
      · exact Option.noConfusion h
      · simp only [Option.some.injEq, Prod.mk.injEq] at h
        obtain ⟨rfl, rfl⟩ := h
        intro hinf
        rcases List.infix_cons_iff.mp (by simpa using hinf) with h1 | h2
        · apply hp
          apply List.isPrefixOf_iff_prefix.mpr
          have hcs : cs = b ++ sep ++ y := findSplit_sound hfs
          have hdp : sep.dropLast <+: sep :=
            ⟨[sep.getLast hsep], List.dropLast_append_getLast hsep⟩
          have hbd : c :: (b ++ sep.dropLast) <+: c :: cs := by
            rw [hcs, List.cons_prefix_cons]
            refine ⟨rfl, ?_⟩
            rw [List.append_assoc]
            exact (List.prefix_append_right_inj b).mpr
              (hdp.trans (List.prefix_append sep y))
          exact h1.trans hbd
        · exact ih hfs h2

/-- Constructing the result of `findSplit` at an explicitly given first
occurrence. -/
theorem findSplit_construct {sep : List Char} (hsep : sep ≠ []) :
    ∀ {x : List Char} (y : List Char), ¬ sep <:+: (x ++ sep.dropLast) →
      findSplit sep (x ++ sep ++ y) = some (x, y) := by
  intro x
  induction x with
  | nil =>
    intro y _
    rcases hs : sep with _ | ⟨s0, st⟩
    · exact absurd hs hsep
    subst hs
    have hp : (s0 :: st).isPrefixOf (s0 :: (st ++ y)) := by
      apply List.isPrefixOf_iff_prefix.mpr
      rw [List.cons_prefix_cons]
      exact ⟨rfl, List.prefix_append st y⟩
    show findSplit (s0 :: st) (s0 :: (st ++ y)) = some ([], y)
    simp only [findSplit, hp, if_true]
    have : (s0 :: (st ++ y)).drop (s0 :: st).length = y := by
      show ((s0 :: st) ++ y).drop (s0 :: st).length = y
      exact List.drop_left _ _
    rw [this]
  | cons c x ih =>
    intro y hocc
    have hocc2 : ¬ sep <:+: (x ++ sep.dropLast) := by
      intro h
      exact hocc (by simpa using List.infix_cons (a := c) h)
    have hdp : sep.dropLast <+: sep :=
      ⟨[sep.getLast hsep], List.dropLast_append_getLast hsep⟩
    have hp : ¬ sep <+: (c :: (x ++ sep ++ y)) := by
      intro hpre
      apply hocc
      have h1 : c :: (x ++ sep.dropLast) <+: c :: (x ++ sep ++ y) := by
        rw [List.cons_prefix_cons]
        refine ⟨rfl, ?_⟩
        rw [List.append_assoc]
        exact (List.prefix_append_right_inj x).mpr
          (hdp.trans (List.prefix_append sep y))
      have hlen : sep.length ≤ (c :: (x ++ sep.dropLast)).length := by
        have hpos : 0 < sep.length := List.length_pos.mpr hsep
        simp only [List.length_cons, List.length_append, List.length_dropLast]
        omega
      have := List.prefix_of_prefix_length_le hpre h1 hlen
      simpa using this.isInfix
    have hp2 : ¬ sep <+: (c :: (x ++ (sep ++ y))) := by
      rw [← List.append_assoc]; exact hp
    have ih2 : findSplit sep (x ++ (sep ++ y)) = some (x, y) := by
      rw [← List.append_assoc]; exact ih y hocc2
    show findSplit sep (c :: (x ++ sep ++ y)) = some (c :: x, y)
    simp [findSplit, List.append_assoc, hp2, ih2]

theorem splitIdx0_construct {sep : List Char} (hsep : sep ≠ [])
    {x : List Char} (y : List Char) (h : ¬ sep <:+: (x ++ sep.dropLast)) :
    splitIdx0 sep (x ++ sep ++ y) = x := by
  rw [splitIdx0, findSplit_construct hsep y h]

theorem splitIdx0_of_not_inf {sep s : List Char} (h : ¬ sep <:+: s) :
    splitIdx0 sep s = s := by
  rw [splitIdx0, findSplit_none_of_not_inf h]

/-- Decomposing an infix of an append: the occurrence lies in the left
part, in the right part, or straddles the boundary. -/
theorem infix_append_decomp {sep x y : List Char} (h : sep <:+: x ++ y) :
    sep <:+: x ∨ sep <:+: y ∨
      ∃ s1 s2, sep = s1 ++ s2 ∧ s1 ≠ [] ∧ s2 ≠ [] ∧ s1 <:+ x ∧ s2 <+: y := by
  induction x with
  | nil => right; left; simpa using h
  | cons c x ih =>
    rcases List.infix_cons_iff.mp (by simpa using h) with h1 | h2
    · -- sep is a prefix of c :: (x ++ y)
      obtain ⟨t, ht⟩ := h1
      rcases hsep2 : sep with _ | ⟨s0, st⟩
      · left; simp
      subst hsep2
      have ht2 : s0 :: (st ++ t) = c :: (x ++ y) := by simpa using ht
      have hc : s0 = c := by injection ht2
      have htl : st ++ t = x ++ y := by
        injection ht2 with hh htl
      rcases List.append_eq_append_iff.mp htl with ⟨a2, ha1, ha2⟩ | ⟨c2, hc1, hc2⟩
      · -- x = st ++ a2 : sep is an infix of c :: x
        left
        have hpre : s0 :: st <+: c :: x := by
          rw [List.cons_prefix_cons]
          refine ⟨hc, ?_⟩
          rw [ha1]
          exact List.prefix_append st a2
        exact hpre.isInfix
      · -- st = x ++ c2
        rcases c2 with _ | ⟨c0, cs2⟩
        · left
          have : s0 :: st = c :: x := by simp [hc, hc1]
          rw [this]
        · right; right
          refine ⟨c :: x, c0 :: cs2, ?_, by simp, by simp, List.suffix_refl _, ?_⟩
          · simp [hc, hc1]
          · rw [hc2]
            exact List.prefix_append _ _
    · rcases ih h2 with h3 | h3 | ⟨s1, s2, hs, h1ne, h2ne, hsuf, hpre⟩
      · left; exact List.infix_cons h3
      · right; left; exact h3
      · right; right
        exact ⟨s1, s2, hs, h1ne, h2ne, hsuf.trans ⟨[c], rfl⟩, hpre⟩

theorem infix_ext_right {l s t : List Char} (h : l <:+: s) : l <:+: s ++ t := by
  obtain ⟨u, v, huv⟩ := h
  exact ⟨u, v ++ t, by rw [← huv]; simp⟩

theorem fence3_of_jsonTag_inf {s : List Char} (h : jsonTag <:+: s) :
    fence3 <:+: s := by
  obtain ⟨u, v, huv⟩ := h
  exact ⟨u, ['j', 's', 'o', 'n'] ++ v, by rw [← huv]; simp [jsonTag, fence3]⟩

theorem jsonTag_ne_nil : jsonTag ≠ [] := by decide

theorem fence3_ne_nil : fence3 ≠ [] := by decide

/-- When the response text is `a ++ "```json" ++ mid ++ "```" ++ b` with
no earlier `"```json"` occurrence, no fence inside `mid` (nor bleeding out
of its right edge), and `b` not starting with a backtick, the code's
fence-stripping extracts exactly `mid`. -/
theorem extract_json_block {a mid b : List Char}
    (h1 : ¬ jsonTag <:+: (a ++ jsonTag.dropLast))
    (h2 : ¬ fence3 <:+: (mid ++ [btk, btk]))
    (h3 : b.head? ≠ some btk) :
    extractText (a ++ jsonTag ++ (mid ++ fence3 ++ b)) = mid := by
  have hmid : ¬ fence3 <:+: mid := fun h => h2 (infix_ext_right h)
  have step1 : findSplit jsonTag (a ++ jsonTag ++ (mid ++ fence3 ++ b)) =
      some (a, mid ++ fence3 ++ b) :=
    findSplit_construct jsonTag_ne_nil _ h1
  rw [extractText, step1]
  show splitIdx0 fence3 (splitIdx0 jsonTag (mid ++ fence3 ++ b)) = mid
  rcases hfs : findSplit jsonTag (mid ++ fence3 ++ b) with _ | ⟨x, y⟩
  · have hinner : splitIdx0 jsonTag (mid ++ fence3 ++ b) = mid ++ fence3 ++ b := by
      rw [splitIdx0, hfs]
    rw [hinner]
    exact splitIdx0_construct fence3_ne_nil b h2
  · have hinner : splitIdx0 jsonTag (mid ++ fence3 ++ b) = x := by
      rw [splitIdx0, hfs]
    rw [hinner]
    have heq : mid ++ (fence3 ++ b) = x ++ (jsonTag ++ y) := by
      have := findSplit_sound hfs
      simpa [List.append_assoc] using this
    rcases List.append_eq_append_iff.mp heq with ⟨a2, ha1, ha2⟩ | ⟨c2, hc1, hc2⟩
    · -- x = mid ++ a2, fence3 ++ b = a2 ++ (jsonTag ++ y)
      rcases List.append_eq_append_iff.mp ha2.symm with ⟨u, hu1, hu2⟩ | ⟨u, hu1, hu2⟩
      · -- fence3 = a2 ++ u, jsonTag ++ y = u ++ b
        by_cases hu0 : u = []
        · -- b starts with the json tag: contradicts h3
          rw [hu0] at hu2
          exfalso
          apply h3
          have hb : b = jsonTag ++ y := by simpa using hu2.symm
          rw [hb, jsonTag]
          rfl
        · by_cases ha20 : a2 = []
          · rw [ha20] at ha1
            simp only [List.append_nil] at ha1
            rw [ha1]
            exact splitIdx0_of_not_inf hmid
          · exfalso
            have ha2len : 0 < a2.length := List.length_pos.mpr ha20
            have hulen : 0 < u.length := List.length_pos.mpr hu0
            have hlen : a2.length + u.length = 3 := by
              have := congrArg List.length hu1
              simpa [fence3] using this.symm
            have hudrop : u = fence3.drop a2.length := by
              rw [hu1]
              exact (List.drop_left a2 u).symm
            have h1le : a2.length ≤ 2 := by omega
            set n := a2.length with hn
            interval_cases n
            · rw [hudrop] at hu2
              apply h3
              have hb : b = (jsonTag ++ y).drop 2 := by
                simpa [fence3] using (congrArg (List.drop 2) hu2).symm
              rw [hb, jsonTag]
              rfl
            · rw [hudrop] at hu2
              apply h3
              have hb : b = (jsonTag ++ y).drop 1 := by
                simpa [fence3] using (congrArg (List.drop 1) hu2).symm
              rw [hb, jsonTag]
              rfl
      · -- a2 = fence3 ++ u, b = u ++ (jsonTag ++ y)
        rw [hu1] at ha1
        rw [ha1]
        have hre : mid ++ (fence3 ++ u) = mid ++ fence3 ++ u := by simp
        rw [hre]
        exact splitIdx0_construct fence3_ne_nil u h2
    · -- mid = x ++ c2, jsonTag ++ y = c2 ++ (fence3 ++ b)
      by_cases hc20 : c2 = []
      · rw [hc20] at hc1
        simp only [List.append_nil] at hc1
        rw [← hc1]
        exact splitIdx0_of_not_inf hmid
      · exfalso
        rcases List.append_eq_append_iff.mp hc2 with ⟨v, hv1, hv2⟩ | ⟨v, hv1, hv2⟩
        · -- c2 = jsonTag ++ v : the json tag sits inside mid
          apply hmid
          apply fence3_of_jsonTag_inf
          rw [hc1, hv1]
          exact ⟨x, v, by simp⟩
        · -- jsonTag = c2 ++ v, fence3 ++ b = v ++ y
          by_cases hv0 : v = []
          · rw [hv0] at hv1
            simp only [List.append_nil] at hv1
            apply hmid
            apply fence3_of_jsonTag_inf
            rw [hc1, ← hv1]
            exact ⟨x, [], by simp⟩
          · have hclen : 0 < c2.length := List.length_pos.mpr hc20
            have hvlen : 0 < v.length := List.length_pos.mpr hv0
            have hlen : c2.length + v.length = 7 := by
              have := congrArg List.length hv1
              simpa [jsonTag] using this.symm
            have hvdrop : v = jsonTag.drop c2.length := by
              rw [hv1]
              exact (List.drop_left c2 v).symm
            have hcle : c2.length ≤ 6 := by omega
            set n := c2.length with hn
            interval_cases n <;>
              · rw [hvdrop] at hv2
                simp [fence3, jsonTag, btk] at hv2

/-- A `"```json"` opening with no later fence at all: the code extracts
everything after the tag (there is no closing fence to stop at). -/
theorem extract_json_noclose {a b : List Char}
    (h1 : ¬ jsonTag <:+: (a ++ jsonTag.dropLast))
    (hb : ¬ fence3 <:+: b) :
    extractText (a ++ jsonTag ++ b) = b := by
  have step1 : findSplit jsonTag (a ++ jsonTag ++ b) = some (a, b) :=
    findSplit_construct jsonTag_ne_nil _ h1
  rw [extractText, step1]
  show splitIdx0 fence3 (splitIdx0 jsonTag b) = b
  have hbj : ¬ jsonTag <:+: b := fun h => hb (fence3_of_jsonTag_inf h)
  rw [splitIdx0_of_not_inf hbj, splitIdx0_of_not_inf hb]

/-- The `elif "```" in text` branch: a plain fenced block with no
`"```json"` anywhere extracts the segment between the first two fences. -/
theorem extract_plain_block {a mid b : List Char}
    (hJ : ¬ jsonTag <:+: (a ++ fence3 ++ (mid ++ fence3 ++ b)))
    (hA : ¬ fence3 <:+: (a ++ [btk, btk]))
    (hM : ¬ fence3 <:+: (mid ++ [btk, btk])) :
    extractText (a ++ fence3 ++ (mid ++ fence3 ++ b)) = mid := by
  have hmid : ¬ fence3 <:+: mid := fun h => hM (infix_ext_right h)
  have step0 : findSplit jsonTag (a ++ fence3 ++ (mid ++ fence3 ++ b)) = none :=
    findSplit_none_of_not_inf hJ
  have step1 : findSplit fence3 (a ++ fence3 ++ (mid ++ fence3 ++ b)) =
      some (a, mid ++ fence3 ++ b) :=
    findSplit_construct fence3_ne_nil _ hA
  rw [extractText, step0, step1]
  show splitIdx0 fence3 (splitIdx0 fence3 (mid ++ fence3 ++ b)) = mid
  rw [splitIdx0_construct fence3_ne_nil b hM, splitIdx0_of_not_inf hmid]

/-- No fence anywhere: the raw text is used unmodified. -/
theorem extract_raw {text : List Char} (h : ¬ fence3 <:+: text) :
    extractText text = text := by
  have hJ2 : ¬ jsonTag <:+: text := fun h2 => h (fence3_of_jsonTag_inf h2)
  rw [extractText, findSplit_none_of_not_inf hJ2, findSplit_none_of_not_inf h]

/-! ### A model of Python's `json` module

`json.loads` is modelled by a recursive-descent parser over `List Char`
returning `Except` with the parser's error text (error positions are
abstracted away; only the propagation of the message matters to the
claims).  Numbers are kept as their source lexeme, avoiding float
semantics.  `json.dumps` uses the default separators `", "` and `": "`.
-/

/-- A parsed JSON value.  `jnum` stores the numeric lexeme verbatim. -/
inductive JsonVal where
  | jnull : JsonVal
  | jbool (b : Bool) : JsonVal
  | jnum (lexeme : List Char) : JsonVal
  | jstr (s : List Char) : JsonVal
  | jarr (elems : List JsonVal) : JsonVal
  | jobj (fields : List (List Char × JsonVal)) : JsonVal

mutual

/-- Structural equality on JSON values (Python `==` on parsed values;
numeric lexemes compare syntactically in this model). -/
def beqVal : JsonVal → JsonVal → Bool
  | .jnull, .jnull => true
  | .jbool a, .jbool b => a == b
  | .jnum a, .jnum b => a == b
  | .jstr a, .jstr b => a == b
  | .jarr a, .jarr b => beqValList a b
  | .jobj a, .jobj b => beqValFields a b
  | _, _ => false

/-- Elementwise `beqVal` on lists. -/
def beqValList : List JsonVal → List JsonVal → Bool
  | [], [] => true
  | a :: as, b :: bs => beqVal a b && beqValList as bs
  | _, _ => false

/-- Pairwise `beqVal` on object fields. -/
def beqValFields : List (List Char × JsonVal) → List (List Char × JsonVal) → Bool
  | [], [] => true
  | (k1, v1) :: as, (k2, v2) :: bs => k1 == k2 && beqVal v1 v2 && beqValFields as bs
  | _, _ => false

end

def msgExpectingValue : List Char := "Expecting value".toList

def msgUnterminated : List Char := "Unterminated string".toList

def msgInvalidEscape : List Char := "Invalid escape".toList

def msgControlChar : List Char := "Invalid control character".toList

def msgExpectingDelimiter : List Char := "Expecting delimiter".toList

def msgExpectingColon : List Char := "Expecting colon delimiter".toList

def msgExpectingProperty : List Char := "Expecting property name".toList

def msgExtraData : List Char := "Extra data".toList

def msgTooDeep : List Char := "Maximum recursion depth exceeded".toList

/-- JSON whitespace (space, tab, newline, carriage return). -/
def isWsChar (c : Char) : Bool :=
  c = ' ' || c = '\t' || c = '\n' || c = '\r'

def skipWs (s : List Char) : List Char := s.dropWhile isWsChar

/-- Strip trailing JSON whitespace. -/
def rstripWs (s : List Char) : List Char := (s.reverse.dropWhile isWsChar).reverse

def hexVal (c : Char) : Option Nat :=
  if '0' ≤ c ∧ c ≤ '9' then some (c.toNat - '0'.toNat)
  else if 'a' ≤ c ∧ c ≤ 'f' then some (c.toNat - 'a'.toNat + 10)
  else if 'A' ≤ c ∧ c ≤ 'F' then some (c.toNat - 'A'.toNat + 10)
  else none

def escMap (e : Char) : Option Char :=
  if e = '"' then some '"'
  else if e = '\\' then some '\\'
  else if e = '/' then some '/'
  else if e = 'b' then some '\x08'
  else if e = 'f' then some '\x0c'
  else if e = 'n' then some '\n'
  else if e = 'r' then some '\r'
  else if e = 't' then some '\t'
  else none

/-- Parse the body of a JSON string (the opening quote already consumed),
returning the decoded content and the remainder after the closing quote. -/
def parseString : List Char → Except (List Char) (List Char × List Char)
  | [] => .error msgUnterminated
  | c :: cs =>
    if c = '"' then .ok ([], cs)
    else if c = '\\' then
      match cs with
      | [] => .error msgUnterminated
      | e :: cs2 =>
        if e = 'u' then
          match cs2 with
          | h1 :: h2 :: h3 :: h4 :: cs3 =>
            match hexVal h1, hexVal h2, hexVal h3, hexVal h4 with
            | some a, some b, some c2, some d =>
              match parseString cs3 with
              | .ok (s, r) =>
                .ok (Char.ofNat (((a * 16 + b) * 16 + c2) * 16 + d) :: s, r)
              | .error m => .error m
            | _, _, _, _ => .error msgInvalidEscape
          | _ => .error msgInvalidEscape
        else
          match escMap e with
          | some ch =>
            match parseString cs2 with
            | .ok (s, r) => .ok (ch :: s, r)
            | .error m => .error m
          | none => .error msgInvalidEscape
    else if c.toNat < 32 then .error msgControlChar
    else
      match parseString cs with
      | .ok (s, r) => .ok (c :: s, r)
      | .error m => .error m

/-- The integer part of a JSON number: `0`, or a nonzero digit followed by
digits (so that leading zeros are rejected, as in Python's json). -/
def parseIntPart : List Char → Except (List Char) (List Char × List Char)
  | [] => .error msgExpectingValue
  | c :: cs =>
    if c = '0' then .ok ([c], cs)
    else if c.isDigit then .ok (c :: cs.takeWhile Char.isDigit, cs.dropWhile Char.isDigit)
    else .error msgExpectingValue

/-- The optional fraction part: `.` followed by at least one digit,
otherwise nothing is consumed. -/
def parseFracPart (s : List Char) : List Char × List Char :=
  match s with
  | '.' :: cs =>
    match cs.takeWhile Char.isDigit with
    | [] => ([], s)
    | ds => ('.' :: ds, cs.dropWhile Char.isDigit)
  | _ => ([], s)

/-- The optional exponent part: `e`/`E`, optional sign, at least one digit,
otherwise nothing is consumed. -/
def parseExpPart (s : List Char) : List Char × List Char :=
  match s with
  | e :: cs =>
    if e = 'e' ∨ e = 'E' then
      match cs with
      | c :: cs2 =>
        if c = '+' ∨ c = '-' then
          match cs2.takeWhile Char.isDigit with
          | [] => ([], s)
          | ds => (e :: c :: ds, cs2.dropWhile Char.isDigit)
        else
          match cs.takeWhile Char.isDigit with
          | [] => ([], s)
          | ds => (e :: ds, cs.dropWhile Char.isDigit)
      | [] => ([], s)
    else ([], s)
  | [] => ([], s)

/-- The unsigned part of a JSON number: integer part, optional fraction,
optional exponent. -/
def parseNumBody (s1 : List Char) : Except (List Char) (List Char × List Char) :=
  match parseIntPart s1 with
  | .error m => .error m
  | .ok (ip, s2) =>
    let fp := parseFracPart s2
    let ep := parseExpPart fp.2
    .ok (ip ++ fp.1 ++ ep.1, ep.2)

/-- Lex a JSON number (longest match, like Python's `NUMBER_RE`),
returning the lexeme and the remainder. -/
def parseNumber (s : List Char) : Except (List Char) (List Char × List Char) :=
  match s with
  | '-' :: cs =>
    match parseNumBody cs with
    | .error m => .error m
    | .ok (lx, r) => .ok ('-' :: lx, r)
  | _ => parseNumBody s

/-- Python `dict` update semantics: an existing key keeps its position but
receives the new value; a new key is appended. -/
def dictUpd : List (List Char × JsonVal) → List Char → JsonVal →
    List (List Char × JsonVal)
  | [], k, v => [(k, v)]
  | (k2, v2) :: t, k, v =>
    if k2 = k then (k2, v) :: t else (k2, v2) :: dictUpd t k v

/-- Building a Python `dict` from parsed key/value pairs (later duplicate
keys overwrite earlier ones). -/
def dictOf (ps : List (List Char × JsonVal)) : List (List Char × JsonVal) :=
  ps.foldl (fun m p => dictUpd m p.1 p.2) []

mutual

/-- Parse one JSON value.  The fuel only bounds nesting/recursion and is
chosen large enough by `jsonLoads`. -/
def parseVal : Nat → List Char → Except (List Char) (JsonVal × List Char)
  | 0, _ => .error msgTooDeep
  | fuel + 1, s =>
    match s with
    | [] => .error msgExpectingValue
    | c :: cs =>
      if c = '"' then
        match parseString cs with
        | .ok (str, r) => .ok (.jstr str, r)
        | .error m => .error m
      else if c = '[' then parseArrTail fuel (skipWs cs)
      else if c = '\x7b' then parseObjTail fuel (skipWs cs)
      else if c = 't' then
        match cs with
        | 'r' :: 'u' :: 'e' :: r => .ok (.jbool true, r)
        | _ => .error msgExpectingValue
      else if c = 'f' then
        match cs with
        | 'a' :: 'l' :: 's' :: 'e' :: r => .ok (.jbool false, r)
        | _ => .error msgExpectingValue
      else if c = 'n' then
        match cs with
        | 'u' :: 'l' :: 'l' :: r => .ok (.jnull, r)
        | _ => .error msgExpectingValue
      else if c = '-' ∨ c.isDigit then
        match parseNumber (c :: cs) with
        | .ok (lx, r) => .ok (.jnum lx, r)
        | .error m => .error m
      else .error msgExpectingValue

/-- After `[` (whitespace skipped): empty array or the item list. -/
def parseArrTail : Nat → List Char → Except (List Char) (JsonVal × List Char)
  | 0, _ => .error msgTooDeep
  | fuel + 1, s =>
    match s with
    | ']' :: r => .ok (.jarr [], r)
    | _ =>
      match parseArrItems fuel s with
      | .ok (xs, r) => .ok (.jarr xs, r)
      | .error m => .error m

/-- One or more comma-separated array items followed by `]`. -/
def parseArrItems : Nat → List Char →
    Except (List Char) (List JsonVal × List Char)
  | 0, _ => .error msgTooDeep
  | fuel + 1, s =>
    match parseVal fuel s with
    | .error m => .error m
    | .ok (v, r) =>
      match skipWs r with
      | ',' :: r2 =>
        match parseArrItems fuel (skipWs r2) with
        | .ok (vs, r3) => .ok (v :: vs, r3)
        | .error m => .error m
      | ']' :: r2 => .ok ([v], r2)
      | _ => .error msgExpectingDelimiter

/-- After `{` (whitespace skipped): empty object or the member list. -/
def parseObjTail : Nat → List Char → Except (List Char) (JsonVal × List Char)
  | 0, _ => .error msgTooDeep
  | fuel + 1, s =>
    match s with
    | '\x7d' :: r => .ok (.jobj [], r)
    | _ =>
      match parseObjItems fuel s with
      | .ok (ps, r) => .ok (.jobj (dictOf ps), r)
      | .error m => .error m

/-- One or more comma-separated `"key": value` members followed by `}`. -/
def parseObjItems : Nat → List Char →
    Except (List Char) (List (List Char × JsonVal) × List Char)
  | 0, _ => .error msgTooDeep
  | fuel + 1, s =>
    match s with
    | '"' :: cs =>
      match parseString cs with
      | .error m => .error m
      | .ok (k, r) =>
        match skipWs r with
        | ':' :: r2 =>
          match parseVal fuel (skipWs r2) with
          | .error m => .error m
          | .ok (v, r3) =>
            match skipWs r3 with
            | ',' :: r4 =>
              match parseObjItems fuel (skipWs r4) with
              | .ok (ps, r5) => .ok ((k, v) :: ps, r5)
              | .error m => .error m
            | '\x7d' :: r4 => .ok ([(k, v)], r4)
            | _ => .error msgExpectingDelimiter
        | _ => .error msgExpectingColon
    | _ => .error msgExpectingProperty

end

/-- Model of Python's `json.loads`: skip surrounding whitespace, parse one
value, and reject trailing data.  The fuel `3 * length + 3` always
suffices (each nesting level consumes at least one character). -/
def jsonLoads (s : List Char) : Except (List Char) JsonVal :=
  let t := rstripWs (skipWs s)
  match parseVal (3 * t.length + 3) t with
  | .error e => .error e
  | .ok (v, rest) => if skipWs rest = [] then .ok v else .error msgExtraData

/-- A hexadecimal digit character (lowercase, as Python emits). -/
def hexDigitChar (n : Nat) : Char :=
  if n < 10 then Char.ofNat ('0'.toNat + n) else Char.ofNat ('a'.toNat + n - 10)

/-- Escaping of one character inside a JSON string, following Python's
`json.dumps` treatment of `"`, `\\` and control characters (other
characters are emitted raw, as with `ensure_ascii=False`; the choice does
not affect any claim, since `loads` decodes both forms identically). -/
def escapeChar (c : Char) : List Char :=
  if c = '"' then ['\\', '"']
  else if c = '\\' then ['\\', '\\']
  else if c = '\n' then ['\\', 'n']
  else if c = '\t' then ['\\', 't']
  else if c = '\r' then ['\\', 'r']
  else if c = '\x08' then ['\\', 'b']
  else if c = '\x0c' then ['\\', 'f']
  else if c.toNat < 32 then
    ['\\', 'u', '0', '0', hexDigitChar (c.toNat / 16), hexDigitChar (c.toNat % 16)]
  else [c]

def escapeStr (s : List Char) : List Char :=
  s.foldr (fun c acc => escapeChar c ++ acc) []

mutual

/-- Model of Python's `json.dumps` with the default separators
`", "` and `": "`. -/
def jsonDumps : JsonVal → List Char
  | .jnull => "null".toList
  | .jbool true => "true".toList
  | .jbool false => "false".toList
  | .jnum lx => lx
  | .jstr s => '"' :: (escapeStr s ++ ['"'])
  | .jarr xs => '[' :: (dumpsArrItems xs ++ [']'])
  | .jobj fs => '\x7b' :: (dumpsObjItems fs ++ ['\x7d'])

/-- Array items joined by `", "`. -/
def dumpsArrItems : List JsonVal → List Char
  | [] => []
  | [v] => jsonDumps v
  | v :: w :: t => jsonDumps v ++ ',' :: ' ' :: dumpsArrItems (w :: t)

/-- Object members `"key": value` joined by `", "`. -/
def dumpsObjItems : List (List Char × JsonVal) → List Char
  | [] => []
  | [(k, v)] => '"' :: (escapeStr k ++ '"' :: ':' :: ' ' :: jsonDumps v)
  | (k, v) :: e :: t =>
    ('"' :: (escapeStr k ++ '"' :: ':' :: ' ' :: jsonDumps v)) ++
      ',' :: ' ' :: dumpsObjItems (e :: t)

end

mutual

/-- Recursion budget needed to parse a value: one unit per parser call. -/
def nodes : JsonVal → Nat
  | .jnull => 1
  | .jbool _ => 1
  | .jnum _ => 1
  | .jstr _ => 1
  | .jarr xs => 2 + nodesList xs
  | .jobj fs => 2 + nodesFields fs

/-- Budget for a non-empty item list. -/
def nodesList : List JsonVal → Nat
  | [] => 0
  | v :: t => 1 + nodes v + nodesList t

/-- Budget for a non-empty member list. -/
def nodesFields : List (List Char × JsonVal) → Nat
  | [] => 0
  | (_, v) :: t => 1 + nodes v + nodesFields t

end

/-- Does an association list carry the given key? -/
def hasKeyB (fs : List (List Char × JsonVal)) (k : List Char) : Bool :=
  fs.any (fun p => p.1 == k)

/-- No duplicate keys (automatic for anything built by `dictOf`). -/
def noDupKeys : List (List Char × JsonVal) → Bool
  | [] => true
  | (k, _) :: t => !(hasKeyB t k) && noDupKeys t

/-- A numeric lexeme is well-formed when the number lexer consumes it
whole and reproduces it. -/
def numOk (lx : List Char) : Bool :=
  match parseNumber lx with
  | .ok (l2, r) => l2 == lx && r.isEmpty
  | .error _ => false

mutual

/-- Values representable as Python data (what `loads` can produce):
well-formed numeric lexemes and duplicate-free object keys. -/
def wfVal : JsonVal → Bool
  | .jnull => true
  | .jbool _ => true
  | .jnum lx => numOk lx
  | .jstr _ => true
  | .jarr xs => wfList xs
  | .jobj fs => noDupKeys fs && wfFields fs

/-- `wfVal` on every element. -/
def wfList : List JsonVal → Bool
  | [] => true
  | v :: t => wfVal v && wfList t

/-- `wfVal` on every member value. -/
def wfFields : List (List Char × JsonVal) → Bool
  | [] => true
  | (_, v) :: t => wfVal v && wfFields t

end

/-- The three literal segments of the prompt f-string (app.py lines
96-123); `{{`/`}}` render as literal braces, `project_desc` and
`deadline_str` are interpolated verbatim between them. -/
def promptPart1 : List Char := ("\n        You are an expert Senior Technical Project Manager. \n        Create a detailed project timeline for: \"" : String).toList

def promptPart2 : List Char := ("\".\n        Target Deadline: " : String).toList

def promptPart3 : List Char := (".\n        \n        Output stricly VALID JSON with this structure:\n        \x7b\n            \"project_title\": \"string\",\n            \"executive_summary\": \"string\",\n            \"risk_assessment\": \x7b\n                \"level\": \"Low/Medium/High\",\n                \"message\": \"string\",\n                \"mitigation\": \"string\"\n            \x7d,\n            \"phases\": [\n                \x7b\n                    \"name\": \"Phase Name\",\n                    \"duration\": \"e.g. 1 Week\",\n                    \"color\": \"blue|purple|green|orange\",\n                    \"description\": \"Short phase description\",\n                    \"tasks\": [\n                        \x7b \"name\": \"Task Name\", \"status\": \"Pending\", \"dependencies\": \"e.g. Task A\" \x7d\n                    ],\n                    \"ai_insight\": \"Specific technical advice for this phase.\"\n                \x7d\n            ]\n        \x7d\n        " : String).toList

/-- Prompt construction of `generate_gemini_timeline`: one fixed
instruction string embedding the description and deadline verbatim. -/
def buildPrompt (project_desc deadline_str : List Char) : List Char :=
  promptPart1 ++ project_desc ++ promptPart2 ++ deadline_str ++ promptPart3

/-- The failure dictionary `{"error": str(e)}` returned by the outer
`except` handler (app.py line 146). -/
def errKey : List Char := "error".toList

def errorDict (msg : List Char) : JsonVal := .jobj [(errKey, .jstr msg)]

/-- Post-processing of a successful model response (app.py lines 136-142):
strip markdown fences, then `json.loads`; a parse error propagates to the
outer handler, which returns the error dictionary. -/
def processText (t : List Char) : JsonVal :=
  match jsonLoads (extractText t) with
  | .ok v => v
  | .error e => errorDict e

/-- Shallow embedding of `generate_gemini_timeline` (app.py lines 90-146).
The two models are external collaborators: each maps a prompt to either
the response text or the text of the raised exception.  Control flow:
the inner bare `except` swallows any primary failure and calls the
fallback with the same `prompt`; an exception from the fallback, or from
`json.loads`, reaches the outer handler which returns `{"error": str(e)}`.
The function's result is whatever value `json.loads` produced — there is
no tag and no schema validation. -/
def generate_gemini_timeline
    (primaryModel fallbackModel : List Char → Except (List Char) (List Char))
    (project_desc deadline_str : List Char) : JsonVal :=
  let prompt := buildPrompt project_desc deadline_str
  let response : Except (List Char) (List Char) :=
    match primaryModel prompt with
    | .ok t => .ok t
    | .error _ => fallbackModel prompt
  match response with
  | .error e => errorDict e
  | .ok t => processText t

/-- Helper naming the value computed from one model outcome alone. -/
def processResponse (r : Except (List Char) (List Char)) : JsonVal :=
  match r with
  | .error e => errorDict e
  | .ok t => processText t

/-! ### The `/generate` and `/project/<id>` handlers -/

/-- Python runtime errors that the handler can raise (uncaught, so they
surface as a 500 from the web framework). -/
inductive PyErr where
  | typeError : PyErr
  | attributeError : PyErr
deriving DecidableEq

/-- Python's `k in v` / `k not in v` membership test on a parsed JSON
value: key lookup on a dict, element equality on a list, substring test on
a string; `None`, booleans and numbers are not iterable and raise
`TypeError`. -/
def pyIn (k : List Char) (v : JsonVal) : Except PyErr Bool :=
  match v with
  | .jobj fs => .ok (hasKeyB fs k)
  | .jarr xs => .ok (xs.any (fun x => beqVal x (.jstr k)))
  | .jstr s => .ok (decide (k <:+: s))
  | _ => .error .typeError

/-- Python's `v.get(key, default)`: only dicts have `.get`; every other
JSON-representable value raises `AttributeError`. -/
def pyGet (v : JsonVal) (k : List Char) (dflt : JsonVal) : Except PyErr JsonVal :=
  match v with
  | .jobj fs =>
    .ok (((fs.find? (fun p => p.1 == k)).map (fun p => p.2)).getD dflt)
  | _ => .error .attributeError

/-- A row of the `Project` table: auto-assigned id, title, the JSON text
blob, and the owning user id. -/
structure ProjectRow where
  id : Nat
  title : JsonVal
  data : List Char
  user_id : Nat

/-- The persistence collaborator's auto-assigned primary key: one more
than the largest id in the table. -/
def freshId (db : List ProjectRow) : Nat :=
  db.foldr (fun r m => max r.id m) 0 + 1

/-- An HTTP response: status code and JSON body. -/
structure HttpResp where
  status : Nat
  body : JsonVal

def missingInputMsg : List Char := "Missing input".toList

def projectTitleKey : List Char := "project_title".toList

def untitledProject : JsonVal := .jstr "Untitled Project".toList

/-- Shallow embedding of the `/generate` handler (app.py lines 154-175).
`auth` is `some uid` when `current_user.is_authenticated`.  Missing or
empty description/deadline yield the 400 response.  When authenticated,
`'error' not in result` is evaluated on the raw result (raising
`TypeError` on non-iterable values); if it holds, a row is persisted with
`title = result.get('project_title', 'Untitled Project')` (raising
`AttributeError` on non-dict values) and `data = json.dumps(result)`.
The parsed result itself is returned with status 200 in all non-400
paths. -/
def generate (db : List ProjectRow) (auth : Option Nat)
    (primaryModel fallbackModel : List Char → Except (List Char) (List Char))
    (description deadline : Option (List Char)) :
    Except PyErr (HttpResp × List ProjectRow) :=
  match description, deadline with
  | some (dc :: dr), some (lc :: lr) =>
    let result := generate_gemini_timeline primaryModel fallbackModel
      (dc :: dr) (lc :: lr)
    match auth with
    | none => .ok (⟨200, result⟩, db)
    | some uid =>
      match pyIn errKey result with
      | .error e => .error e
      | .ok true => .ok (⟨200, result⟩, db)
      | .ok false =>
        match pyGet result projectTitleKey untitledProject with
        | .error e => .error e
        | .ok title =>
          .ok (⟨200, result⟩,
            db ++ [⟨freshId db, title, jsonDumps result, uid⟩])
  | _, _ => .ok (⟨400, errorDict missingInputMsg⟩, db)

/-- Outcome of the `/project/<int:id>` handler. -/
inductive GetResp where
  | notFound : GetResp
  | forbidden (body : JsonVal) : GetResp
  | ok200 (body : JsonVal) : GetResp
  | parseFail (e : List Char) : GetResp

def unauthorizedMsg : List Char := "Unauthorized".toList

/-- Shallow embedding of `get_project` (app.py lines 276-282): 404 when
the id is absent, 403 `{"error": "Unauthorized"}` when the row belongs to
another user, otherwise `json.loads` of the stored blob. -/
def get_project (db : List ProjectRow) (uid : Nat) (pid : Nat) : GetResp :=
  match db.find? (fun r => r.id == pid) with
  | none => .notFound
  | some p =>
    if p.user_id ≠ uid then .forbidden (errorDict unauthorizedMsg)
    else
      match jsonLoads p.data with
      | .ok v => .ok200 v
      | .error e => .parseFail e

/-! ### Whitespace-padding lemmas for `jsonLoads` -/

theorem rstripWs_append_nl (l : List Char) : rstripWs (l ++ ['\n']) = rstripWs l := by
  have hnl : isWsChar '\n' = true := by decide
  simp [rstripWs, List.reverse_append, List.dropWhile_cons, hnl]

theorem skipWs_cons_nl (t : List Char) : skipWs ('\n' :: t) = skipWs t := by
  have hnl : isWsChar '\n' = true := by decide
  simp [skipWs, List.dropWhile_cons, hnl]

theorem rstrip_skip_append_nl (s : List Char) :
    rstripWs (skipWs (s ++ ['\n'])) = rstripWs (skipWs s) := by
  induction s with
  | nil => rfl
  | cons c s ih =>
    by_cases hw : isWsChar c
    · show rstripWs (skipWs (c :: (s ++ ['\n']))) = rstripWs (skipWs (c :: s))
      simp only [skipWs, List.dropWhile_cons, hw, if_true]
      exact ih
    · show rstripWs (skipWs (c :: (s ++ ['\n']))) = rstripWs (skipWs (c :: s))
      simp only [skipWs, List.dropWhile_cons, hw, if_false]
      exact rstripWs_append_nl (c :: s)

/-- `json.loads` ignores a leading and a trailing newline: parsing
`"\n" ++ s ++ "\n"` equals parsing `s`. -/
theorem jsonLoads_pad (s : List Char) :
    jsonLoads ('\n' :: (s ++ ['\n'])) = jsonLoads s := by
  unfold jsonLoads
  rw [skipWs_cons_nl, rstrip_skip_append_nl]

/-! ### The claims about `generate_gemini_timeline` -/

theorem not_infix_jsonTag_dropLast : ¬ jsonTag <:+: ([] ++ jsonTag.dropLast) := by
  decide

/-- Claim C1: with non-empty description and deadline, if the primary
model succeeds and returns exactly a ```json fenced block whose content
`mid` is valid JSON (the fence well-formed: no stray fence inside the
content or bleeding into the closing fence), `generate_gemini_timeline`
returns precisely the value parsed from that content, unchanged. -/
theorem C1_json_fenced_success
    (primaryModel fallbackModel : List Char → Except (List Char) (List Char))
    (desc deadline mid : List Char) (v : JsonVal)
    (hdesc : desc ≠ []) (hdl : deadline ≠ [])
    (hfence : ¬ fence3 <:+: (mid ++ [btk, btk]))
    (hparse : jsonLoads mid = .ok v)
    (hprim : primaryModel (buildPrompt desc deadline) =
      .ok (jsonTag ++ mid ++ fence3)) :
    generate_gemini_timeline primaryModel fallbackModel desc deadline = v := by
  have hext : extractText (jsonTag ++ mid ++ fence3) = mid := by
    have h := extract_json_block (a := []) (b := [])
      not_infix_jsonTag_dropLast hfence (by decide)
    simpa using h
  simp only [generate_gemini_timeline, hprim]
  show processText (jsonTag ++ mid ++ fence3) = v
  rw [processText, hext, hparse]

/-- Claim C2: whenever the primary model raises (any exception `e`, which
is never inspected), the fallback model is invoked with the identical
prompt string, and the overall result is computed from the fallback's
outcome alone — `e` does not occur in the result. -/
theorem C2_fallback_identical_prompt
    (primaryModel fallbackModel : List Char → Except (List Char) (List Char))
    (desc deadline e : List Char)
    (hprim : primaryModel (buildPrompt desc deadline) = .error e) :
    generate_gemini_timeline primaryModel fallbackModel desc deadline =
      processResponse (fallbackModel (buildPrompt desc deadline)) := by
  simp only [generate_gemini_timeline, hprim]
  rcases hfb : fallbackModel (buildPrompt desc deadline) with e2 | t <;>
    simp [processResponse, hfb]

/-- Claim C3: if the primary raises `e1` and the fallback raises `e2`, the
result is the failure dictionary carrying exactly `e2` (the fallback's
error text verbatim); `e1` is discarded. -/
theorem C3_both_fail_fallback_message
    (primaryModel fallbackModel : List Char → Except (List Char) (List Char))
    (desc deadline e1 e2 : List Char)
    (hprim : primaryModel (buildPrompt desc deadline) = .error e1)
    (hfb : fallbackModel (buildPrompt desc deadline) = .error e2) :
    generate_gemini_timeline primaryModel fallbackModel desc deadline =
      errorDict e2 := by
  simp only [generate_gemini_timeline, hprim, hfb]

/-- Claim C6: when the fence-stripped response text is not valid JSON, the
result is the failure dictionary carrying exactly the JSON parser's error
text — the function neither raises nor returns the parsed value. -/
theorem C6_parse_failure
    (primaryModel fallbackModel : List Char → Except (List Char) (List Char))
    (desc deadline t e : List Char)
    (hprim : primaryModel (buildPrompt desc deadline) = .ok t)
    (hparse : jsonLoads (extractText t) = .error e) :
    generate_gemini_timeline primaryModel fallbackModel desc deadline =
      errorDict e := by
  simp only [generate_gemini_timeline, hprim]
  show processText t = errorDict e
  rw [processText, hparse]

/-- Claim C7: when the fence-stripped response text parses as JSON, the
parsed structure is returned as-is — no schema validation of any kind, so
objects lacking `phases` (or any documented field) still come back as a
success value. -/
theorem C7_success_no_validation
    (primaryModel fallbackModel : List Char → Except (List Char) (List Char))
    (desc deadline t : List Char) (v : JsonVal)
    (hprim : primaryModel (buildPrompt desc deadline) = .ok t)
    (hparse : jsonLoads (extractText t) = .ok v) :
    generate_gemini_timeline primaryModel fallbackModel desc deadline = v := by
  simp only [generate_gemini_timeline, hprim]
  show processText t = v
  rw [processText, hparse]

/-- A model stub that always returns the given response text. -/
def okModel (t : List Char) : List Char → Except (List Char) (List Char) :=
  fun _ => .ok t

/-- A model stub that always raises with the given message. -/
def errModel (e : List Char) : List Char → Except (List Char) (List Char) :=
  fun _ => .error e

/-- Witness for C1 at a concrete input: a ```json fence around `7`. -/
theorem C1_json_fenced_success_witness :
    generate_gemini_timeline (okModel (jsonTag ++ "7".toList ++ fence3))
      (errModel "x".toList) "d".toList "w".toList = .jnum ['7'] :=
  C1_json_fenced_success (okModel (jsonTag ++ "7".toList ++ fence3))
    (errModel "x".toList) "d".toList "w".toList "7".toList (.jnum ['7'])
    (by decide) (by decide) (by decide) (by rfl) (by rfl)

/-- Witness for C2 at a concrete input: primary raises, fallback returns
`1`; the result is the fallback's processed output. -/
theorem C2_fallback_identical_prompt_witness :
    generate_gemini_timeline (errModel "boom".toList) (okModel "1".toList)
      "d".toList "w".toList =
      processResponse (okModel "1".toList (buildPrompt "d".toList "w".toList)) :=
  C2_fallback_identical_prompt _ _ _ _ _ rfl

/-- Witness for C3 at a concrete input: both models raise; the fallback's
message is the one surfaced. -/
theorem C3_both_fail_fallback_message_witness :
    generate_gemini_timeline (errModel "quota".toList) (errModel "503".toList)
      "d".toList "w".toList = errorDict "503".toList :=
  C3_both_fail_fallback_message _ _ _ _ _ _ rfl rfl

/-- Witness for C6 at a concrete input: prose with no fence and no JSON
yields the parser's error text. -/
theorem C6_parse_failure_witness :
    generate_gemini_timeline (okModel "Sure!".toList) (errModel [])
      "d".toList "w".toList = errorDict msgExpectingValue :=
  C6_parse_failure _ _ _ _ _ _ rfl rfl

/-- Witness for C7 at a concrete input: an object lacking `phases` is
still returned as a success value. -/
theorem C7_success_no_validation_witness :
    generate_gemini_timeline (okModel "\x7b\"a\": null\x7d".toList)
      (errModel []) "d".toList "w".toList = .jobj [("a".toList, .jnull)] :=
  C7_success_no_validation _ _ _ _ _ _ rfl (by rfl)

/-! ### Barrier lemmas: extending no-occurrence facts across boundaries -/

/-- If `"```json"` does not occur in `px`, it does not occur in
`px ++ "```jso"` either (it cannot straddle into its own proper prefix). -/
theorem not_infix_jsonTag_ext {px : List Char} (hp : ¬ jsonTag <:+: px) :
    ¬ jsonTag <:+: (px ++ jsonTag.dropLast) := by
  intro h
  rcases infix_append_decomp h with h1 | h1 | ⟨s1, s2, hs, h1ne, h2ne, hsuf, hpre⟩
  · exact hp h1
  · have := h1.length_le
    simp [jsonTag] at this
  · have hdrop : s2 = jsonTag.drop s1.length := by
      rw [hs]
      exact (List.drop_left s1 s2).symm
    have hl1 : 0 < s1.length := List.length_pos.mpr h1ne
    have hl2 : 0 < s2.length := List.length_pos.mpr h2ne
    have hlen : s1.length + s2.length = 7 := by
      have := congrArg List.length hs
      simpa [jsonTag] using this.symm
    have hle : s1.length ≤ 6 := by omega
    set n := s1.length with hn
    interval_cases n <;>
      · rw [hdrop] at hpre
        exact absurd hpre (by decide)

/-- A newline on each side shields a fence-free `body`: `"```"` does not
occur in `"\n" ++ body ++ "\n``"`. -/
theorem not_infix_fence3_nl {body : List Char} (hb : ¬ fence3 <:+: body) :
    ¬ fence3 <:+: ('\n' :: (body ++ ['\n', btk, btk])) := by
  intro h
  rcases List.infix_cons_iff.mp h with h1 | h1
  · obtain ⟨t, ht⟩ := h1
    have : btk = '\n' := by
      have := congrArg List.head? ht
      simpa [fence3] using this
    exact absurd this (by decide)
  · rcases infix_append_decomp h1 with h2 | h2 | ⟨s1, s2, hs, h1ne, h2ne, hsuf, hpre⟩
    · exact hb h2
    · exact absurd h2 (by decide)
    · have hdrop : s2 = fence3.drop s1.length := by
        rw [hs]
        exact (List.drop_left s1 s2).symm
      have hl1 : 0 < s1.length := List.length_pos.mpr h1ne
      have hl2 : 0 < s2.length := List.length_pos.mpr h2ne
      have hlen : s1.length + s2.length = 3 := by
        have := congrArg List.length hs
        simpa [fence3] using this.symm
      have hle : s1.length ≤ 2 := by omega
      set n := s1.length with hn
      interval_cases n <;>
        · rw [hdrop] at hpre
          rcases hpre with ⟨t, ht⟩
          have : btk = '\n' := by
            have := congrArg List.head? ht
            simpa [fence3] using this
          exact absurd this (by decide)

/-! ### Claim C4 (fence-stripping trichotomy) -/

/-- Spec-side rendering of "contains a fenced block opened with a language
tag matching json": a `"```json"` opening with a closing `"```"` after it
(a fenced block is a span delimited by two fences, per the glossary). -/
def specHasJsonFencedBlock (t : List Char) : Bool :=
  match findSplit jsonTag t with
  | some p => (findSplit fence3 p.2).isSome
  | none => false

/-- Spec-side rendering of "contains any fenced block": two `"```"`
fences. -/
def specHasFencedBlock (t : List Char) : Bool :=
  match findSplit fence3 t with
  | some p => (findSplit fence3 p.2).isSome
  | none => false

/-- Counterexample to claim C4 as stated: on `"hello ```jsonx"` the text
contains no fenced block at all (the only fence is the unclosed opening
tag), so the claimed trichotomy requires the raw text to be used
unmodified — but the code's substring test `"```json" in text` fires and
extracts `"x"`. -/
theorem C4_counterexample :
    specHasJsonFencedBlock "hello \x60\x60\x60jsonx".toList = false ∧
    specHasFencedBlock "hello \x60\x60\x60jsonx".toList = false ∧
    extractText "hello \x60\x60\x60jsonx".toList = "x".toList ∧
    "x".toList ≠ "hello \x60\x60\x60jsonx".toList := by
  refine ⟨rfl, rfl, rfl, by decide⟩

/-- Claim C4 (amended): the three cases are selected by plain substring
containment of `"```json"` and `"```"` — no closing fence is required.
(i) With a `"```json"` opening, content up to the next fence is extracted
(interference of a directly abutting later `"```json"` aside);
(ii) with a `"```json"` opening and no later fence, everything after the
tag is extracted;
(iii) with no `"```json"` but a fenced pair, the segment between the
first two fences is extracted; (iv) with no fence, the raw text is used
unmodified. -/
theorem C4_trichotomy_amended :
    (∀ a mid b : List Char,
      ¬ jsonTag <:+: (a ++ jsonTag.dropLast) →
      ¬ fence3 <:+: (mid ++ [btk, btk]) →
      b.head? ≠ some btk →
      extractText (a ++ jsonTag ++ (mid ++ fence3 ++ b)) = mid) ∧
    (∀ a b : List Char,
      ¬ jsonTag <:+: (a ++ jsonTag.dropLast) →
      ¬ fence3 <:+: b →
      extractText (a ++ jsonTag ++ b) = b) ∧
    (∀ a mid b : List Char,
      ¬ jsonTag <:+: (a ++ fence3 ++ (mid ++ fence3 ++ b)) →
      ¬ fence3 <:+: (a ++ [btk, btk]) →
      ¬ fence3 <:+: (mid ++ [btk, btk]) →
      extractText (a ++ fence3 ++ (mid ++ fence3 ++ b)) = mid) ∧
    (∀ t : List Char, ¬ fence3 <:+: t → extractText t = t) :=
  ⟨fun _ _ _ => extract_json_block, fun _ _ => extract_json_noclose,
    fun _ _ _ => extract_plain_block, fun _ => extract_raw⟩

/-- Witness for the amended C4, exercising cases (i), (iii) and (iv) at
concrete inputs. -/
theorem C4_trichotomy_amended_witness :
    extractText ("A".toList ++ jsonTag ++ ("X".toList ++ fence3 ++ "B".toList)) =
      "X".toList ∧
    extractText ("q".toList ++ fence3 ++ ("Y".toList ++ fence3 ++ "z".toList)) =
      "Y".toList ∧
    extractText "plain".toList = "plain".toList :=
  ⟨C4_trichotomy_amended.1 "A".toList "X".toList "B".toList
      (by decide) (by decide) (by decide),
    C4_trichotomy_amended.2.2.1 "q".toList "Y".toList "z".toList
      (by decide) (by decide) (by decide),
    C4_trichotomy_amended.2.2.2 "plain".toList (by decide)⟩

/-! ### Claim C5 (fence-stripping / parsing equivalence) -/

/-- Counterexample to claim C5 as stated: with prefix `"p"`, JSON body
`"{}"` and suffix `` "`json" ``, the response text is
`` "p```json\n{}\n````json" ``; the code extracts `` "\n{}\n`" `` (the
suffix's backtick merges with the closing fence and a spurious later
`"```json"` occurrence truncates the split), parsing fails with
`Extra data`, and the result is the failure dictionary — not the object
obtained by parsing `"{}"` directly. -/
theorem C5_counterexample :
    jsonLoads "\x7b\x7d".toList = .ok (.jobj []) ∧
    processText "p\x60\x60\x60json\n\x7b\x7d\n\x60\x60\x60\x60json".toList =
      errorDict msgExtraData ∧
    errorDict msgExtraData ≠ JsonVal.jobj [] := by
  refine ⟨rfl, rfl, ?_⟩
  intro h
  simp [errorDict] at h

/-- Claim C5 (amended): provided the prefix contains no `"```json"`, the
body contains no `"```"`, and the suffix does not start with a backtick,
processing `prefix ++ "```json\n" ++ body ++ "\n```" ++ suffix` yields
exactly the value parsed from `body`; and on any text with no `"```"` at
all, the parsed result equals parsing the raw text directly. -/
theorem C5_fence_strip_equiv_amended :
    (∀ px body sx : List Char, ∀ v : JsonVal,
      ¬ jsonTag <:+: px →
      ¬ fence3 <:+: body →
      sx.head? ≠ some btk →
      jsonLoads body = .ok v →
      processText (px ++ jsonTag ++
        (('\n' :: (body ++ ['\n'])) ++ fence3 ++ sx)) = v) ∧
    (∀ t : List Char, ¬ fence3 <:+: t →
      jsonLoads (extractText t) = jsonLoads t) := by
  constructor
  · intro px body sx v hp hb hs hv
    have h2 : ¬ fence3 <:+: (('\n' :: (body ++ ['\n'])) ++ [btk, btk]) := by
      have := not_infix_fence3_nl hb
      simpa using this
    have hext : extractText (px ++ jsonTag ++
        (('\n' :: (body ++ ['\n'])) ++ fence3 ++ sx)) = '\n' :: (body ++ ['\n']) :=
      extract_json_block (not_infix_jsonTag_ext hp) h2 hs
    rw [processText, hext, jsonLoads_pad, hv]
  · intro t ht
    rw [extract_raw ht]

/-- Witness for the amended C5 at concrete inputs. -/
theorem C5_fence_strip_equiv_amended_witness :
    processText ("p".toList ++ jsonTag ++
      (('\n' :: ("\x7b\x7d".toList ++ ['\n'])) ++ fence3 ++ "tail".toList)) =
      .jobj [] ∧
    jsonLoads (extractText "just text 1".toList) = jsonLoads "just text 1".toList :=
  ⟨C5_fence_strip_equiv_amended.1 "p".toList "\x7b\x7d".toList "tail".toList
      (.jobj []) (by decide) (by decide) (by decide) (by rfl),
    C5_fence_strip_equiv_amended.2 "just text 1".toList (by decide)⟩

/-! ### Claims C9 and C10 (the untagged result at the handler) -/

/-- Claim C9: the Success/Failure union is untagged — a failure is itself
a plain JSON object whose only marker is the top-level `"error"` key
(first conjunct: the failure dictionary passes the very same membership
test).  Consequently, a model response that legitimately parses to an
object containing an `"error"` key is treated as a failure by `/generate`:
the row is not persisted (the database is returned unchanged) even though
generation and parsing succeeded, and the object is still the response
body. -/
theorem C9_error_key_untagged
    (db : List ProjectRow) (uid : Nat)
    (pm fm : List Char → Except (List Char) (List Char))
    (desc deadline t : List Char) (fs : List (List Char × JsonVal))
    (hdesc : desc ≠ []) (hdl : deadline ≠ [])
    (hpm : pm (buildPrompt desc deadline) = .ok t)
    (hparse : jsonLoads (extractText t) = .ok (.jobj fs))
    (hkey : hasKeyB fs errKey = true) :
    (∀ m, pyIn errKey (errorDict m) = .ok true) ∧
    generate db (some uid) pm fm (some desc) (some deadline) =
      .ok (⟨200, .jobj fs⟩, db) := by
  refine ⟨fun m => rfl, ?_⟩
  rcases desc with _ | ⟨dc, dr⟩
  · exact absurd rfl hdesc
  rcases deadline with _ | ⟨lc, lr⟩
  · exact absurd rfl hdl
  have hres : generate_gemini_timeline pm fm (dc :: dr) (lc :: lr) = .jobj fs := by
    simp only [generate_gemini_timeline, hpm]
    show processText t = .jobj fs
    rw [processText, hparse]
  simp only [generate, hres, pyIn, hkey]

/-- Witness for C9 at a concrete input: the model returns
`{"error": "nope"}` — valid JSON, yet treated as a failure and not
persisted. -/
theorem C9_error_key_untagged_witness :
    generate [] (some 1) (okModel "\x7b\"error\": \"nope\"\x7d".toList)
      (errModel []) (some "d".toList) (some "w".toList) =
      .ok (⟨200, .jobj [(errKey, .jstr "nope".toList)]⟩, []) :=
  (C9_error_key_untagged [] 1 _ _ "d".toList "w".toList
    "\x7b\"error\": \"nope\"\x7d".toList [(errKey, .jstr "nope".toList)]
    (by decide) (by decide) rfl (by rfl) (by rfl)).2

/-- Claim C10: `generate_gemini_timeline` does not guarantee an object —
any parsed JSON value (here a number) is returned as-is, and the
handler's `'error' not in result` membership test is then applied to a
non-dictionary value: for an authenticated user this raises `TypeError`
(the handler errors out instead of responding). -/
theorem C10_nonobject_result
    (db : List ProjectRow) (uid : Nat)
    (pm fm : List Char → Except (List Char) (List Char))
    (desc deadline t lx : List Char)
    (hdesc : desc ≠ []) (hdl : deadline ≠ [])
    (hpm : pm (buildPrompt desc deadline) = .ok t)
    (hparse : jsonLoads (extractText t) = .ok (.jnum lx)) :
    generate_gemini_timeline pm fm desc deadline = .jnum lx ∧
    generate db (some uid) pm fm (some desc) (some deadline) =
      .error .typeError := by
  rcases desc with _ | ⟨dc, dr⟩
  · exact absurd rfl hdesc
  rcases deadline with _ | ⟨lc, lr⟩
  · exact absurd rfl hdl
  have hres : generate_gemini_timeline pm fm (dc :: dr) (lc :: lr) = .jnum lx := by
    simp only [generate_gemini_timeline, hpm]
    show processText t = .jnum lx
    rw [processText, hparse]
  exact ⟨hres, by simp only [generate, hres, pyIn]⟩

/-- Witness for C10 at a concrete input: the model returns bare `7`. -/
theorem C10_nonobject_result_witness :
    generate [] (some 1) (okModel "7".toList) (errModel [])
      (some "d".toList) (some "w".toList) = .error .typeError :=
  (C10_nonobject_result [] 1 _ _ "d".toList "w".toList "7".toList ['7']
    (by decide) (by decide) rfl (by rfl)).2

/-! ### Round trip: `jsonLoads (jsonDumps v) = ok v` for well-formed `v`

Needed for claim C8 (the stored blob is recovered unmodified). -/

/-- Characters after which the number lexer provably stops. -/
def numStop : List Char → Prop
  | [] => True
  | c :: _ => c.isDigit = false ∧ c ≠ '.' ∧ c ≠ 'e' ∧ c ≠ 'E'

theorem numStop_takeWhile {rest : List Char} (h : numStop rest) :
    rest.takeWhile Char.isDigit = [] := by
  rcases rest with _ | ⟨c, t⟩
  · rfl
  · exact List.takeWhile_cons_of_neg (by simp [h.1])

theorem numStop_dropWhile {rest : List Char} (h : numStop rest) :
    rest.dropWhile Char.isDigit = rest := by
  rcases rest with _ | ⟨c, t⟩
  · rfl
  · rw [List.dropWhile_cons]
    simp [h.1]

theorem span_extend_full {p : Char → Bool} {l rest : List Char}
    (h : l.dropWhile p = []) (hr : rest.takeWhile p = [])
    (hr2 : rest.dropWhile p = rest) :
    (l ++ rest).takeWhile p = l.takeWhile p ∧ (l ++ rest).dropWhile p = rest := by
  have hall : ∀ x ∈ l, p x := List.dropWhile_eq_nil_iff.mp h
  have htw : l.takeWhile p = l := by
    have := List.takeWhile_append_dropWhile p l
    rw [h, List.append_nil] at this
    exact this
  constructor
  · rw [List.takeWhile_append_of_pos hall, hr, htw, List.append_nil]
  · rw [List.dropWhile_append_of_pos hall, hr2]

theorem span_extend_stop {p : Char → Bool} {l rest d : List Char}
    (h : l.dropWhile p = d) (hd : d ≠ []) :
    (l ++ rest).takeWhile p = l.takeWhile p ∧
      (l ++ rest).dropWhile p = d ++ rest := by
  constructor
  · rw [List.takeWhile_append]
    have hlt : (l.takeWhile p).length ≠ l.length := by
      intro hlen
      have h2 := congrArg List.length (List.takeWhile_append_dropWhile p l)
      rw [h] at h2
      simp only [List.length_append] at h2
      have : 0 < d.length := List.length_pos.mpr hd
      omega
    simp [hlt]
  · rw [List.dropWhile_append, h]
    have hne : d.isEmpty = false := by
      rcases d with _ | _
      · exact absurd rfl hd
      · rfl
    simp [hne]

theorem parseIntPart_extend {s ip s2 rest : List Char}
    (h : parseIntPart s = .ok (ip, s2))
    (hstop : s2 = [] → numStop rest) :
    parseIntPart (s ++ rest) = .ok (ip, s2 ++ rest) := by
  rcases s with _ | ⟨c, cs⟩
  · exact absurd h (by simp [parseIntPart])
  rw [List.cons_append]
  by_cases hc0 : c = '0'
  · simp only [parseIntPart, hc0, if_true, Except.ok.injEq, Prod.mk.injEq] at h ⊢
    obtain ⟨h1, h2⟩ := h
    subst h1
    subst h2
    exact ⟨rfl, rfl⟩
  · by_cases hcd : c.isDigit = true
    · simp only [parseIntPart, hc0, hcd, if_true, if_false, Except.ok.injEq,
        Prod.mk.injEq] at h ⊢
      obtain ⟨h1, h2⟩ := h
      rcases hdw : cs.dropWhile Char.isDigit with _ | ⟨d, ds⟩
      · have hs2 : s2 = [] := by rw [← h2, hdw]
        have hns := hstop hs2
        obtain ⟨htw, hdw2⟩ :=
          span_extend_full hdw (numStop_takeWhile hns) (numStop_dropWhile hns)
        refine ⟨?_, ?_⟩
        · rw [htw, h1]
        · rw [hdw2, hs2, List.nil_append]
      · obtain ⟨htw, hdw2⟩ := span_extend_stop hdw (by simp)
        refine ⟨?_, ?_⟩
        · rw [htw, h1]
        · rw [hdw2, ← h2, hdw]
    · exact absurd h (by simp [parseIntPart, hc0, hcd])

theorem parseFracPart_nodot {c : Char} {t : List Char} (hc : c ≠ '.') :
    parseFracPart (c :: t) = ([], c :: t) := by
  unfold parseFracPart
  split
  · rename_i cs heq
    exact absurd (by injection heq) hc
  · rfl

theorem parseFracPart_dot_none {cs2 : List Char}
    (htw : cs2.takeWhile Char.isDigit = []) :
    parseFracPart ('.' :: cs2) = ([], '.' :: cs2) := by
  unfold parseFracPart
  split
  · rename_i cs heq
    obtain rfl : cs2 = cs := by injection heq
    rw [htw]
  · rfl

theorem parseFracPart_dot_some {cs2 : List Char} {d : Char} {ds : List Char}
    (htw : cs2.takeWhile Char.isDigit = d :: ds) :
    parseFracPart ('.' :: cs2) = ('.' :: (d :: ds), cs2.dropWhile Char.isDigit) := by
  unfold parseFracPart
  split
  · rename_i cs heq
    obtain rfl : cs2 = cs := by injection heq
    rw [htw]
  · rename_i hne
    exact absurd rfl (hne cs2)

theorem parseExpPart_nil : parseExpPart [] = ([], []) := rfl

theorem parseExpPart_noe {c : Char} {t : List Char}
    (hc : ¬ (c = 'e' ∨ c = 'E')) :
    parseExpPart (c :: t) = ([], c :: t) := by
  simp only [parseExpPart, hc, if_false]

theorem parseExpPart_numStop {rest : List Char} (h : numStop rest) :
    parseExpPart rest = ([], rest) := by
  rcases rest with _ | ⟨c, t⟩
  · rfl
  · exact parseExpPart_noe (by rintro (rfl | rfl) <;> simp [numStop] at h)

theorem parseFracPart_numStop {rest : List Char} (h : numStop rest) :
    parseFracPart rest = ([], rest) := by
  rcases rest with _ | ⟨c, t⟩
  · rfl
  · exact parseFracPart_nodot (by rintro rfl; simp [numStop] at h)

theorem parseExpPart_e_nil {e : Char} (he : e = 'e' ∨ e = 'E') :
    parseExpPart [e] = ([], [e]) := by
  simp only [parseExpPart, he, if_true]

theorem parseExpPart_sign_none {e c : Char} {cs4 : List Char}
    (he : e = 'e' ∨ e = 'E') (hc : c = '+' ∨ c = '-')
    (htw : cs4.takeWhile Char.isDigit = []) :
    parseExpPart (e :: c :: cs4) = ([], e :: c :: cs4) := by
  simp only [parseExpPart, he, hc, if_true, htw]

theorem parseExpPart_sign_some {e c : Char} {cs4 : List Char} {d : Char}
    {ds : List Char}
    (he : e = 'e' ∨ e = 'E') (hc : c = '+' ∨ c = '-')
    (htw : cs4.takeWhile Char.isDigit = d :: ds) :
    parseExpPart (e :: c :: cs4) =
      (e :: c :: (d :: ds), cs4.dropWhile Char.isDigit) := by
  simp only [parseExpPart, he, hc, if_true, htw]

theorem parseExpPart_nosign_none {e c : Char} {cs4 : List Char}
    (he : e = 'e' ∨ e = 'E') (hc : ¬ (c = '+' ∨ c = '-'))
    (htw : (c :: cs4).takeWhile Char.isDigit = []) :
    parseExpPart (e :: c :: cs4) = ([], e :: c :: cs4) := by
  simp only [parseExpPart, he, hc, if_true, if_false, htw]

theorem parseExpPart_nosign_some {e c : Char} {cs4 : List Char} {d : Char}
    {ds : List Char}
    (he : e = 'e' ∨ e = 'E') (hc : ¬ (c = '+' ∨ c = '-'))
    (htw : (c :: cs4).takeWhile Char.isDigit = d :: ds) :
    parseExpPart (e :: c :: cs4) =
      (e :: (d :: ds), (c :: cs4).dropWhile Char.isDigit) := by
  simp only [parseExpPart, he, hc, if_true, if_false, htw]

/-- Extending the exponent phase past its end: if it consumed the whole
input, it consumes exactly the same lexeme of the extended input. -/
theorem parseExpPart_extend {s3 e1 rest : List Char}
    (horig : parseExpPart s3 = (e1, []))
    (hrest : numStop rest) :
    parseExpPart (s3 ++ rest) = (e1, rest) := by
  rcases s3 with _ | ⟨e, cs3⟩
  · obtain ⟨rfl, -⟩ : e1 = [] ∧ True := by
      constructor
      · have := congrArg Prod.fst horig
        simpa [parseExpPart_nil] using this.symm
      · trivial
    simpa using parseExpPart_numStop hrest
  by_cases he : e = 'e' ∨ e = 'E'
  · rcases cs3 with _ | ⟨c, cs4⟩
    · rw [parseExpPart_e_nil he] at horig
      exact absurd (congrArg Prod.snd horig) (by simp)
    by_cases hc : c = '+' ∨ c = '-'
    · rcases htw : cs4.takeWhile Char.isDigit with _ | ⟨d, ds⟩
      · rw [parseExpPart_sign_none he hc htw] at horig
        exact absurd (congrArg Prod.snd horig) (by simp)
      · rw [parseExpPart_sign_some he hc htw] at horig
        have he1 : e1 = e :: c :: (d :: ds) := (congrArg Prod.fst horig).symm
        have hdw : cs4.dropWhile Char.isDigit = [] := congrArg Prod.snd horig
        obtain ⟨htw2, hdw2⟩ :=
          span_extend_full hdw (numStop_takeWhile hrest) (numStop_dropWhile hrest)
        rw [htw] at htw2
        show parseExpPart (e :: c :: (cs4 ++ rest)) = (e1, rest)
        rw [parseExpPart_sign_some he hc htw2, he1, hdw2]
    · rcases htw : (c :: cs4).takeWhile Char.isDigit with _ | ⟨d, ds⟩
      · rw [parseExpPart_nosign_none he hc htw] at horig
        exact absurd (congrArg Prod.snd horig) (by simp)
      · rw [parseExpPart_nosign_some he hc htw] at horig
        have he1 : e1 = e :: (d :: ds) := (congrArg Prod.fst horig).symm
        have hdw : (c :: cs4).dropWhile Char.isDigit = [] := congrArg Prod.snd horig
        obtain ⟨htw2, hdw2⟩ :=
          span_extend_full hdw (numStop_takeWhile hrest) (numStop_dropWhile hrest)
        rw [htw] at htw2
        have htw3 : (c :: (cs4 ++ rest)).takeWhile Char.isDigit = d :: ds := htw2
        have hdw3 : (c :: (cs4 ++ rest)).dropWhile Char.isDigit = rest := hdw2
        show parseExpPart (e :: c :: (cs4 ++ rest)) = (e1, rest)
        rw [parseExpPart_nosign_some he hc htw3, he1, hdw3]
  · rw [parseExpPart_noe he] at horig
    exact absurd (congrArg Prod.snd horig) (by simp)

theorem span_extend {p : Char → Bool} {l rest : List Char}
    (hr : rest.takeWhile p = []) (hr2 : rest.dropWhile p = rest) :
    (l ++ rest).takeWhile p = l.takeWhile p ∧
      (l ++ rest).dropWhile p = l.dropWhile p ++ rest := by
  rcases hdw : l.dropWhile p with _ | ⟨d, ds⟩
  · obtain ⟨a, b⟩ := span_extend_full hdw hr hr2
    refine ⟨a, ?_⟩
    rw [b]
    simp
  · obtain ⟨a, b⟩ := span_extend_stop hdw (by simp)
    refine ⟨a, ?_⟩
    rw [b]

theorem parseNumBody_extend {s1 lx rest : List Char}
    (h : parseNumBody s1 = .ok (lx, [])) (hrest : numStop rest) :
    parseNumBody (s1 ++ rest) = .ok (lx, rest) := by
  unfold parseNumBody at h ⊢
  rcases hip : parseIntPart s1 with m | ⟨ip, s2⟩
  · rw [hip] at h
    exact absurd h (by simp)
  rw [hip] at h
  rw [parseIntPart_extend hip (fun _ => hrest)]
  dsimp only at h ⊢
  simp only [Except.ok.injEq, Prod.mk.injEq] at h ⊢
  rcases s2 with _ | ⟨d0, ds2⟩
  · have hnil : parseFracPart ([] : List Char) = ([], []) := rfl
    simp only [hnil, parseExpPart_nil, List.append_nil] at h
    simp only [List.nil_append, parseFracPart_numStop hrest,
      parseExpPart_numStop hrest, List.append_nil]
    first
    | exact ⟨h, rfl⟩
    | exact h
    | exact ⟨h.1, rfl⟩
  obtain ⟨hsp1, hsp2⟩ := span_extend (p := Char.isDigit) (l := ds2)
    (numStop_takeWhile hrest) (numStop_dropWhile hrest)
  by_cases hdot : d0 = '.'
  · subst hdot
    rcases htw : ds2.takeWhile Char.isDigit with _ | ⟨dd, dds⟩
    · rw [parseFracPart_dot_none htw] at h
      dsimp only at h
      have hc : ¬ (('.' : Char) = 'e' ∨ ('.' : Char) = 'E') := by decide
      rw [parseExpPart_noe hc] at h
      dsimp only at h
      exact absurd h.2 (by simp)
    · rw [parseFracPart_dot_some htw] at h
      dsimp only at h
      have hfr : parseFracPart (('.' :: ds2) ++ rest) =
          ('.' :: (dd :: dds), ds2.dropWhile Char.isDigit ++ rest) := by
        show parseFracPart ('.' :: (ds2 ++ rest)) = _
        rw [parseFracPart_dot_some (hsp1.trans htw), hsp2]
      rw [hfr]
      dsimp only
      have hE : parseExpPart (ds2.dropWhile Char.isDigit) =
          ((parseExpPart (ds2.dropWhile Char.isDigit)).1, []) :=
        Prod.ext rfl h.2
      rw [parseExpPart_extend hE hrest]
      exact ⟨h.1, rfl⟩
  · rw [parseFracPart_nodot hdot] at h
    dsimp only at h
    have hfr : parseFracPart ((d0 :: ds2) ++ rest) =
        ([], (d0 :: ds2) ++ rest) := by
      show parseFracPart (d0 :: (ds2 ++ rest)) = ([], d0 :: (ds2 ++ rest))
      rw [parseFracPart_nodot hdot]
    rw [hfr]
    dsimp only
    have hE : parseExpPart (d0 :: ds2) = ((parseExpPart (d0 :: ds2)).1, []) :=
      Prod.ext rfl h.2
    rw [parseExpPart_extend hE hrest]
    exact ⟨h.1, rfl⟩

theorem parseNumber_not_neg {c0 : Char} {cs : List Char} (h : c0 ≠ '-') :
    parseNumber (c0 :: cs) = parseNumBody (c0 :: cs) := by
  unfold parseNumber
  split
  · rename_i cs2 heq
    exact absurd (by injection heq) h
  · rfl

/-- A well-formed numeric lexeme followed by a stopper re-lexes to exactly
itself. -/
theorem parseNumber_extend {lx rest : List Char}
    (h : numOk lx = true) (hrest : numStop rest) :
    parseNumber (lx ++ rest) = .ok (lx, rest) := by
  unfold numOk at h
  rcases hpn : parseNumber lx with m | ⟨l2, r⟩ <;> rw [hpn] at h
  · exact absurd h (by simp)
  have hl2 : l2 = lx := by
    have : (l2 == lx) = true := by
      have hsplit := (Bool.and_eq_true (l2 == lx) r.isEmpty).mp h
      exact hsplit.1
    exact (beq_iff_eq ..).mp this
  have hr0 : r = [] := by
    have hsplit := (Bool.and_eq_true (l2 == lx) r.isEmpty).mp h
    exact List.isEmpty_iff.mp hsplit.2
  subst hl2
  rw [hr0] at hpn
  rcases l2 with _ | ⟨c0, cs⟩
  · exact absurd hpn (by simp [parseNumber, parseNumBody, parseIntPart])
  by_cases hneg : c0 = '-'
  · subst hneg
    have hpn9 : (match parseNumBody cs with
        | Except.error m => (Except.error m : Except (List Char) (List Char × List Char))
        | Except.ok (lxb, rb) => Except.ok ('-' :: lxb, rb)) =
          Except.ok ('-' :: cs, []) := hpn
    have hpn2 : parseNumBody cs = .ok (cs, []) := by
      rcases hb : parseNumBody cs with m | ⟨lxb, rb⟩ <;> rw [hb] at hpn9
      · exact absurd hpn9 (by simp)
      · simp only [Except.ok.injEq, Prod.mk.injEq] at hpn9
        obtain ⟨hpn1, hpn3⟩ := hpn9
        have hlx : lxb = cs := by injection hpn1
        rw [hlx, hpn3]
    show (match parseNumBody (cs ++ rest) with
      | Except.error m => (Except.error m : Except (List Char) (List Char × List Char))
      | Except.ok (lxb, rb) => Except.ok ('-' :: lxb, rb)) =
        Except.ok ('-' :: cs, rest)
    rw [parseNumBody_extend hpn2 hrest]
  · rw [parseNumber_not_neg hneg] at hpn
    show parseNumber (c0 :: (cs ++ rest)) = .ok (c0 :: cs, rest)
    rw [parseNumber_not_neg hneg]
    exact parseNumBody_extend hpn hrest

theorem hexVal_hexDigitChar {n : Nat} (h : n < 16) :
    hexVal (hexDigitChar n) = some n := by
  interval_cases n <;> decide

/-- One-step unfolding of `parseString` on a cons cell. -/
theorem parseString_cons_eq (c : Char) (cs : List Char) :
    parseString (c :: cs) =
      (if c = '"' then .ok ([], cs)
       else if c = '\\' then
         match cs with
         | [] => .error msgUnterminated
         | e :: cs2 =>
           if e = 'u' then
             match cs2 with
             | h1 :: h2 :: h3 :: h4 :: cs3 =>
               match hexVal h1, hexVal h2, hexVal h3, hexVal h4 with
               | some a, some b, some c2, some d =>
                 match parseString cs3 with
                 | .ok (s, r) =>
                   .ok (Char.ofNat (((a * 16 + b) * 16 + c2) * 16 + d) :: s, r)
                 | .error m => .error m
               | _, _, _, _ => .error msgInvalidEscape
             | _ => .error msgInvalidEscape
           else
             match escMap e with
             | some ch =>
               match parseString cs2 with
               | .ok (s, r) => .ok (ch :: s, r)
               | .error m => .error m
             | none => .error msgInvalidEscape
       else if c.toNat < 32 then .error msgControlChar
       else
         match parseString cs with
         | .ok (s, r) => .ok (c :: s, r)
         | .error m => .error m) := by
  rw [parseString.eq_def]

theorem parseString_backslash {e ch : Char} {t s2 r : List Char}
    (he : e ≠ 'u') (hmap : escMap e = some ch)
    (ht : parseString t = .ok (s2, r)) :
    parseString ('\\' :: e :: t) = .ok (ch :: s2, r) := by
  rw [parseString_cons_eq]
  simp [he, hmap, ht]

theorem parseString_unicode {h1 h2 h3 h4 : Char} {a b c2 d : Nat}
    {t s2 r : List Char}
    (hv1 : hexVal h1 = some a) (hv2 : hexVal h2 = some b)
    (hv3 : hexVal h3 = some c2) (hv4 : hexVal h4 = some d)
    (ht : parseString t = .ok (s2, r)) :
    parseString ('\\' :: 'u' :: h1 :: h2 :: h3 :: h4 :: t) =
      .ok (Char.ofNat (((a * 16 + b) * 16 + c2) * 16 + d) :: s2, r) := by
  rw [parseString_cons_eq]
  simp [hv1, hv2, hv3, hv4, ht]

theorem parseString_raw {c : Char} {t s2 r : List Char}
    (hq : c ≠ '"') (hbs : c ≠ '\\') (hc : ¬ c.toNat < 32)
    (ht : parseString t = .ok (s2, r)) :
    parseString (c :: t) = .ok (c :: s2, r) := by
  rw [parseString_cons_eq]
  simp [hq, hbs, hc, ht]

theorem parseString_escapeChar (c : Char) {t s2 r : List Char}
    (ht : parseString t = .ok (s2, r)) :
    parseString (escapeChar c ++ t) = .ok (c :: s2, r) := by
  unfold escapeChar
  by_cases h1 : c = '"'
  · subst h1
    simp only [if_true]
    exact parseString_backslash (by decide) (by decide) ht
  by_cases h2 : c = '\\'
  · subst h2
    simp only [h1, if_false, if_true]
    exact parseString_backslash (by decide) (by decide) ht
  by_cases h3 : c = '\n'
  · subst h3
    simp only [h1, h2, if_false, if_true]
    exact parseString_backslash (by decide) (by decide) ht
  by_cases h4 : c = '\t'
  · subst h4
    simp only [h1, h2, h3, if_false, if_true]
    exact parseString_backslash (by decide) (by decide) ht
  by_cases h5 : c = '\r'
  · subst h5
    simp only [h1, h2, h3, h4, if_false, if_true]
    exact parseString_backslash (by decide) (by decide) ht
  by_cases h6 : c = '\x08'
  · subst h6
    simp only [h1, h2, h3, h4, h5, if_false, if_true]
    exact parseString_backslash (by decide) (by decide) ht
  by_cases h7 : c = '\x0c'
  · subst h7
    simp only [h1, h2, h3, h4, h5, h6, if_false, if_true]
    exact parseString_backslash (by decide) (by decide) ht
  by_cases h8 : c.toNat < 32
  · simp only [h1, h2, h3, h4, h5, h6, h7, h8, if_false, if_true]
    have hdiv : c.toNat / 16 < 16 := by omega
    have hmod : c.toNat % 16 < 16 := Nat.mod_lt _ (by omega)
    have hstep := parseString_unicode (show hexVal '0' = some 0 by decide)
      (show hexVal '0' = some 0 by decide)
      (hexVal_hexDigitChar hdiv) (hexVal_hexDigitChar hmod) ht
    show parseString ('\\' :: 'u' :: '0' :: '0' :: hexDigitChar (c.toNat / 16)
      :: hexDigitChar (c.toNat % 16) :: t) = Except.ok (c :: s2, r)
    rw [hstep]
    have harith : ((0 * 16 + 0) * 16 + c.toNat / 16) * 16 + c.toNat % 16 =
        c.toNat := by omega
    rw [harith, Char.ofNat_toNat]
  · simp only [h1, h2, h3, h4, h5, h6, h7, h8, if_false]
    exact parseString_raw h1 h2 h8 ht

theorem parseString_escape (s rest : List Char) :
    parseString (escapeStr s ++ '"' :: rest) = .ok (s, rest) := by
  induction s with
  | nil =>
    show parseString ('"' :: rest) = .ok ([], rest)
    rw [parseString_cons_eq]
    simp
  | cons c s ih =>
    show parseString ((escapeChar c ++ escapeStr s) ++ '"' :: rest) =
      .ok (c :: s, rest)
    rw [List.append_assoc]
    exact parseString_escapeChar c ih

/-! ### Round trip, part 2: `jsonDumps` output survives whitespace stripping -/

theorem skipWs_cons_not {c : Char} {t : List Char} (h : isWsChar c = false) :
    skipWs (c :: t) = c :: t := by
  simp [skipWs, List.dropWhile_cons, h]

theorem rstripWs_append_not {l : List Char} {c : Char} (h : isWsChar c = false) :
    rstripWs (l ++ [c]) = l ++ [c] := by
  simp [rstripWs, List.reverse_append, List.dropWhile_cons, h]

/-- A well-formed numeric lexeme re-lexes to exactly itself. -/
theorem numOk_spec {lx : List Char} (h : numOk lx = true) :
    parseNumber lx = .ok (lx, []) := by
  unfold numOk at h
  rcases hpn : parseNumber lx with m | ⟨l2, r⟩ <;> rw [hpn] at h
  · exact absurd h (by simp)
  · have hsplit := (Bool.and_eq_true (l2 == lx) r.isEmpty).mp h
    have hl2 : l2 = lx := (beq_iff_eq ..).mp hsplit.1
    have hr0 : r = [] := List.isEmpty_iff.mp hsplit.2
    rw [hl2, hr0]

/-- The integer part is a non-empty block of digits. -/
theorem parseIntPart_all {s ip r : List Char}
    (h : parseIntPart s = .ok (ip, r)) :
    ip ≠ [] ∧ ∀ x ∈ ip, x.isDigit = true := by
  rcases s with _ | ⟨c, cs⟩
  · exact absurd h (by simp [parseIntPart])
  by_cases hc0 : c = '0'
  · simp only [parseIntPart, hc0, if_true, Except.ok.injEq, Prod.mk.injEq] at h
    obtain ⟨h1, _⟩ := h
    subst h1
    exact ⟨by simp, by decide⟩
  · by_cases hcd : c.isDigit = true
    · simp only [parseIntPart, hc0, hcd, if_false, if_true, Except.ok.injEq,
        Prod.mk.injEq] at h
      obtain ⟨h1, _⟩ := h
      subst h1
      refine ⟨by simp, ?_⟩
      intro x hx
      rcases List.mem_cons.mp hx with rfl | hx2
      · exact hcd
      · exact List.mem_takeWhile_imp hx2
    · exact absurd h (by simp [parseIntPart, hc0, hcd])

theorem ends_digit_of_all {l : List Char} (h : l ≠ [])
    (h2 : ∀ x ∈ l, x.isDigit = true) :
    ∃ m d, l = m ++ [d] ∧ d.isDigit = true := by
  refine ⟨l.dropLast, l.getLast h, ?_, h2 _ (List.getLast_mem h)⟩
  exact (List.dropLast_append_getLast h).symm

/-- A non-empty fraction lexeme ends in a digit. -/
theorem parseFracPart_fst {s : List Char} :
    (parseFracPart s).1 = [] ∨
      ∃ m d, (parseFracPart s).1 = m ++ [d] ∧ d.isDigit = true := by
  unfold parseFracPart
  split
  · rename_i cs
    rcases htw : cs.takeWhile Char.isDigit with _ | ⟨d0, ds⟩
    · exact Or.inl rfl
    · right
      have hall : ∀ x ∈ d0 :: ds, x.isDigit = true := by
        intro x hx
        exact List.mem_takeWhile_imp (htw ▸ hx)
      obtain ⟨m, d, hm, hd⟩ := ends_digit_of_all (by simp) hall
      refine ⟨'.' :: m, d, ?_, hd⟩
      show ('.' :: d0 :: ds : List Char) = ('.' :: m) ++ [d]
      rw [hm]
      rfl
  · exact Or.inl rfl

/-- A non-empty exponent lexeme ends in a digit. -/
theorem parseExpPart_fst {s : List Char} :
    (parseExpPart s).1 = [] ∨
      ∃ m d, (parseExpPart s).1 = m ++ [d] ∧ d.isDigit = true := by
  unfold parseExpPart
  split
  · rename_i e cs
    by_cases he : e = 'e' ∨ e = 'E'
    · simp only [he, if_true]
      rcases cs with _ | ⟨c, cs2⟩
      · exact Or.inl rfl
      by_cases hsign : c = '+' ∨ c = '-'
      · simp only [hsign, if_true]
        rcases htw : cs2.takeWhile Char.isDigit with _ | ⟨d0, ds⟩
        · exact Or.inl rfl
        · right
          have hall : ∀ x ∈ d0 :: ds, x.isDigit = true := by
            intro x hx
            exact List.mem_takeWhile_imp (htw ▸ hx)
          obtain ⟨m, d, hm, hd⟩ := ends_digit_of_all (by simp) hall
          refine ⟨e :: c :: m, d, ?_, hd⟩
          show (e :: c :: d0 :: ds : List Char) = (e :: c :: m) ++ [d]
          rw [hm]
          rfl
      · simp only [hsign, if_false]
        rcases htw : (c :: cs2).takeWhile Char.isDigit with _ | ⟨d0, ds⟩
        · exact Or.inl rfl
        · right
          have hall : ∀ x ∈ d0 :: ds, x.isDigit = true := by
            intro x hx
            exact List.mem_takeWhile_imp (htw ▸ hx)
          obtain ⟨m, d, hm, hd⟩ := ends_digit_of_all (by simp) hall
          refine ⟨e :: m, d, ?_, hd⟩
          show (e :: d0 :: ds : List Char) = (e :: m) ++ [d]
          rw [hm]
          rfl
    · simp only [he, if_false]
      first
      | exact Or.inl trivial
      | exact Or.inl rfl
  · exact Or.inl rfl

theorem parseNumBody_endsDigit {s lx r : List Char}
    (h : parseNumBody s = .ok (lx, r)) :
    ∃ m d, lx = m ++ [d] ∧ d.isDigit = true := by
  unfold parseNumBody at h
  rcases hip : parseIntPart s with m0 | ⟨ip, s2⟩ <;> rw [hip] at h
  · exact absurd h (by simp)
  simp only [Except.ok.injEq, Prod.mk.injEq] at h
  obtain ⟨h1, _⟩ := h
  obtain ⟨hipne, hipall⟩ := parseIntPart_all hip
  rcases @parseExpPart_fst (parseFracPart s2).2 with he | ⟨m, d, hm, hd⟩
  · rcases @parseFracPart_fst s2 with hf | ⟨m, d, hm, hd⟩
    · obtain ⟨m, d, hm, hd⟩ := ends_digit_of_all hipne hipall
      refine ⟨m, d, ?_, hd⟩
      rw [← h1, he, hf, List.append_nil, List.append_nil, hm]
    · refine ⟨ip ++ m, d, ?_, hd⟩
      rw [← h1, he, List.append_nil, hm, ← List.append_assoc]
  · refine ⟨ip ++ (parseFracPart s2).1 ++ m, d, ?_, hd⟩
    rw [← h1, hm, ← List.append_assoc]

theorem parseNumBody_head {s lx r : List Char}
    (h : parseNumBody s = .ok (lx, r)) :
    ∃ c cs, lx = c :: cs ∧ c.isDigit = true := by
  unfold parseNumBody at h
  rcases hip : parseIntPart s with m0 | ⟨ip, s2⟩ <;> rw [hip] at h
  · exact absurd h (by simp)
  simp only [Except.ok.injEq, Prod.mk.injEq] at h
  obtain ⟨h1, _⟩ := h
  obtain ⟨hipne, hipall⟩ := parseIntPart_all hip
  rcases ip with _ | ⟨c, cs⟩
  · exact absurd rfl hipne
  refine ⟨c, cs ++ (parseFracPart s2).1 ++ (parseExpPart (parseFracPart s2).2).1,
    ?_, hipall c (by simp)⟩
  rw [← h1]
  rfl

theorem numOk_head {lx : List Char} (h : numOk lx = true) :
    ∃ c cs, lx = c :: cs ∧ (c = '-' ∨ c.isDigit = true) := by
  have hpn := numOk_spec h
  rcases lx with _ | ⟨c0, cs0⟩
  · exact absurd hpn (by simp [parseNumber, parseNumBody, parseIntPart])
  by_cases hneg : c0 = '-'
  · exact ⟨c0, cs0, rfl, Or.inl hneg⟩
  · rw [parseNumber_not_neg hneg] at hpn
    obtain ⟨c, cs, hcons, hd⟩ := parseNumBody_head hpn
    have hc : c0 = c := by injection hcons
    exact ⟨c0, cs0, rfl, Or.inr (by rw [hc]; exact hd)⟩

theorem numOk_last {lx : List Char} (h : numOk lx = true) :
    ∃ m d, lx = m ++ [d] ∧ d.isDigit = true := by
  have hpn := numOk_spec h
  rcases lx with _ | ⟨c0, cs0⟩
  · exact absurd hpn (by simp [parseNumber, parseNumBody, parseIntPart])
  by_cases hneg : c0 = '-'
  · subst hneg
    have hpn9 : (match parseNumBody cs0 with
        | Except.error m => (Except.error m : Except (List Char) (List Char × List Char))
        | Except.ok (lxb, rb) => Except.ok ('-' :: lxb, rb)) =
          Except.ok ('-' :: cs0, []) := hpn
    rcases hb : parseNumBody cs0 with m | ⟨lxb, rb⟩ <;> rw [hb] at hpn9
    · exact absurd hpn9 (by simp)
    obtain ⟨m, d, hm, hd⟩ := parseNumBody_endsDigit hb
    simp only [Except.ok.injEq, Prod.mk.injEq] at hpn9
    obtain ⟨h1, _⟩ := hpn9
    have hlxb : lxb = cs0 := by injection h1
    refine ⟨'-' :: m, d, ?_, hd⟩
    rw [← hlxb, hm]
    rfl
  · rw [parseNumber_not_neg hneg] at hpn
    exact parseNumBody_endsDigit hpn

theorem digit_ne {c : Char} (x : Char) (h : c.isDigit = true)
    (hx : x.isDigit = false) : c ≠ x := by
  intro he
  rw [he, hx] at h
  exact Bool.noConfusion h

theorem digit_not_ws {c : Char} (h : c.isDigit = true) : isWsChar c = false := by
  have h1 : c ≠ ' ' := digit_ne _ h (by decide)
  have h2 : c ≠ '\t' := digit_ne _ h (by decide)
  have h3 : c ≠ '\n' := digit_ne _ h (by decide)
  have h4 : c ≠ '\r' := digit_ne _ h (by decide)
  simp [isWsChar, h1, h2, h3, h4]

/-- The characters that can open a serialized JSON value. -/
abbrev headOk (c : Char) : Prop :=
  c = 'n' ∨ c = 't' ∨ c = 'f' ∨ c = '"' ∨ c = '[' ∨ c = '\x7b' ∨
    c = '-' ∨ c.isDigit = true

theorem headOk_props {c : Char} (h : headOk c) :
    isWsChar c = false ∧ c ≠ ']' ∧ c ≠ '\x7d' ∧ c ≠ ',' := by
  rcases h with rfl | rfl | rfl | rfl | rfl | rfl | rfl | hd
  all_goals first
  | exact ⟨by decide, by decide, by decide, by decide⟩
  | exact ⟨digit_not_ws hd, digit_ne _ hd (by decide), digit_ne _ hd (by decide),
      digit_ne _ hd (by decide)⟩

/-- A serialized well-formed value starts with a non-blank value opener. -/
theorem jsonDumps_head {v : JsonVal} (h : wfVal v = true) :
    ∃ c m, jsonDumps v = c :: m ∧ headOk c := by
  cases v with
  | jnull => exact ⟨'n', "ull".toList, rfl, by decide⟩
  | jbool b =>
    cases b
    · exact ⟨'f', "alse".toList, rfl, by decide⟩
    · exact ⟨'t', "rue".toList, rfl, by decide⟩
  | jnum lx =>
    have hnum : numOk lx = true := h
    obtain ⟨c, cs, hcons, hc⟩ := numOk_head hnum
    refine ⟨c, cs, by rw [show jsonDumps (.jnum lx) = lx from rfl, hcons], ?_⟩
    rcases hc with rfl | hd
    · exact Or.inr (Or.inr (Or.inr (Or.inr (Or.inr (Or.inr (Or.inl rfl))))))
    · exact Or.inr (Or.inr (Or.inr (Or.inr (Or.inr (Or.inr (Or.inr hd))))))
  | jstr s => exact ⟨'"', escapeStr s ++ ['"'], rfl, by decide⟩
  | jarr xs => exact ⟨'[', dumpsArrItems xs ++ [']'], rfl, by decide⟩
  | jobj fs => exact ⟨'\x7b', dumpsObjItems fs ++ ['\x7d'], rfl, by decide⟩

/-- A serialized well-formed value ends in a non-blank character. -/
theorem jsonDumps_last {v : JsonVal} (h : wfVal v = true) :
    ∃ m d, jsonDumps v = m ++ [d] ∧ isWsChar d = false := by
  cases v with
  | jnull => exact ⟨"nul".toList, 'l', rfl, by decide⟩
  | jbool b =>
    cases b
    · exact ⟨"fals".toList, 'e', rfl, by decide⟩
    · exact ⟨"tru".toList, 'e', rfl, by decide⟩
  | jnum lx =>
    have hnum : numOk lx = true := h
    obtain ⟨m, d, hm, hd⟩ := numOk_last hnum
    exact ⟨m, d, by rw [show jsonDumps (.jnum lx) = lx from rfl, hm],
      digit_not_ws hd⟩
  | jstr s => exact ⟨'"' :: escapeStr s, '"', rfl, by decide⟩
  | jarr xs => exact ⟨'[' :: dumpsArrItems xs, ']', rfl, by decide⟩
  | jobj fs => exact ⟨'\x7b' :: dumpsObjItems fs, '\x7d', rfl, by decide⟩

/-- Serialized output needs no whitespace stripping. -/
theorem strip_dumps {v : JsonVal} (h : wfVal v = true) :
    rstripWs (skipWs (jsonDumps v)) = jsonDumps v := by
  obtain ⟨c, m, hcm, hc⟩ := jsonDumps_head h
  obtain ⟨m2, d, hmd, hd⟩ := jsonDumps_last h
  rw [hcm, skipWs_cons_not (headOk_props hc).1, ← hcm, hmd,
    rstripWs_append_not hd]

mutual

/-- The parsing budget of a value is at most three units per character of
its serialization (plus one). -/
theorem nodes_le : ∀ v : JsonVal, nodes v ≤ 3 * (jsonDumps v).length + 1
  | .jnull => by decide
  | .jbool b => by cases b <;> decide
  | .jnum lx => by
    show 1 ≤ 3 * lx.length + 1
    omega
  | .jstr s => by
    show 1 ≤ 3 * ('"' :: (escapeStr s ++ ['"'])).length + 1
    omega
  | .jarr xs => by
    have hl := nodesList_le xs
    show 2 + nodesList xs ≤ 3 * ('[' :: (dumpsArrItems xs ++ [']'])).length + 1
    simp only [List.length_cons, List.length_append]
    omega
  | .jobj fs => by
    have hl := nodesFields_le fs
    show 2 + nodesFields fs ≤
      3 * ('\x7b' :: (dumpsObjItems fs ++ ['\x7d'])).length + 1
    simp only [List.length_cons, List.length_append]
    omega

theorem nodesList_le : ∀ xs : List JsonVal,
    nodesList xs ≤ 3 * (dumpsArrItems xs).length + 5
  | [] => by decide
  | [v] => by
    have h := nodes_le v
    show 1 + nodes v + nodesList [] ≤ 3 * (jsonDumps v).length + 5
    show 1 + nodes v + 0 ≤ 3 * (jsonDumps v).length + 5
    omega
  | v :: w :: t => by
    have h1 := nodes_le v
    have h2 := nodesList_le (w :: t)
    show 1 + nodes v + nodesList (w :: t) ≤
      3 * (jsonDumps v ++ ',' :: ' ' :: dumpsArrItems (w :: t)).length + 5
    simp only [List.length_append, List.length_cons]
    omega

theorem nodesFields_le : ∀ fs : List (List Char × JsonVal),
    nodesFields fs ≤ 3 * (dumpsObjItems fs).length + 5
  | [] => by decide
  | [(k, v)] => by
    have h := nodes_le v
    show 1 + nodes v + nodesFields [] ≤
      3 * ('"' :: (escapeStr k ++ '"' :: ':' :: ' ' :: jsonDumps v)).length + 5
    show 1 + nodes v + 0 ≤
      3 * ('"' :: (escapeStr k ++ '"' :: ':' :: ' ' :: jsonDumps v)).length + 5
    simp only [List.length_cons, List.length_append]
    omega
  | (k, v) :: e :: t => by
    have h1 := nodes_le v
    have h2 := nodesFields_le (e :: t)
    show 1 + nodes v + nodesFields (e :: t) ≤
      3 * (('"' :: (escapeStr k ++ '"' :: ':' :: ' ' :: jsonDumps v)) ++
        ',' :: ' ' :: dumpsObjItems (e :: t)).length + 5
    simp only [List.length_cons, List.length_append]
    omega

end

theorem nodes_pos : ∀ v : JsonVal, 1 ≤ nodes v
  | .jnull => by simp only [nodes]; omega
  | .jbool _ => by simp only [nodes]; omega
  | .jnum _ => by simp only [nodes]; omega
  | .jstr _ => by simp only [nodes]; omega
  | .jarr _ => by simp only [nodes]; omega
  | .jobj _ => by simp only [nodes]; omega

/-! ### Python `dict` construction is the identity on duplicate-free pair lists -/

theorem dictUpd_append_of_not {acc : List (List Char × JsonVal)}
    {k : List Char} {v : JsonVal} (h : hasKeyB acc k = false) :
    dictUpd acc k v = acc ++ [(k, v)] := by
  induction acc with
  | nil => rfl
  | cons p t ih =>
    obtain ⟨k2, v2⟩ := p
    have h9 : ((k2 == k) || hasKeyB t k) = false := h
    rcases Bool.or_eq_false_iff.mp h9 with ⟨h1, h2⟩
    have hne : ¬ k2 = k := by
      intro he
      rw [he, beq_self_eq_true] at h1
      exact Bool.noConfusion h1
    show (if k2 = k then (k2, v) :: t else (k2, v2) :: dictUpd t k v) =
      (k2, v2) :: t ++ [(k, v)]
    rw [if_neg hne, ih h2]
    rfl

theorem noDup_split {acc : List (List Char × JsonVal)} {k : List Char}
    {v : JsonVal} {ps : List (List Char × JsonVal)}
    (h : noDupKeys (acc ++ (k, v) :: ps) = true) :
    hasKeyB acc k = false := by
  induction acc with
  | nil => rfl
  | cons p t ih =>
    obtain ⟨k2, v2⟩ := p
    have h9 : (!(hasKeyB (t ++ (k, v) :: ps) k2) &&
        noDupKeys (t ++ (k, v) :: ps)) = true := h
    rcases (Bool.and_eq_true _ _).mp h9 with ⟨h1, h2⟩
    have hkey : hasKeyB (t ++ (k, v) :: ps) k2 = false := by
      simpa using h1
    have hkey2 : hasKeyB ((k, v) :: ps) k2 = false := by
      have happ : (hasKeyB t k2 || hasKeyB ((k, v) :: ps) k2) = false := by
        rw [show (hasKeyB t k2 || hasKeyB ((k, v) :: ps) k2) =
          hasKeyB (t ++ (k, v) :: ps) k2 from by
            simp [hasKeyB, List.any_append]]
        exact hkey
      exact (Bool.or_eq_false_iff.mp happ).2
    have hkk2 : (k == k2) = false := by
      have h3 : ((k == k2) || hasKeyB ps k2) = false := hkey2
      exact (Bool.or_eq_false_iff.mp h3).1
    have hne : k2 ≠ k := by
      intro he
      rw [he, beq_self_eq_true] at hkk2
      exact Bool.noConfusion hkk2
    show ((k2 == k) || hasKeyB t k) = false
    rw [Bool.or_eq_false_iff]
    exact ⟨beq_eq_false_iff_ne.mpr hne, ih h2⟩

theorem dictOf_go {ps : List (List Char × JsonVal)} :
    ∀ {acc : List (List Char × JsonVal)}, noDupKeys (acc ++ ps) = true →
      ps.foldl (fun m p => dictUpd m p.1 p.2) acc = acc ++ ps := by
  induction ps with
  | nil =>
    intro acc _
    simp
  | cons p t ih =>
    intro acc h
    obtain ⟨k, v⟩ := p
    rw [List.foldl_cons,
      show dictUpd acc (k, v).1 (k, v).2 = dictUpd acc k v from rfl,
      dictUpd_append_of_not (noDup_split h)]
    have h2 : noDupKeys ((acc ++ [(k, v)]) ++ t) = true := by
      rw [List.append_assoc]
      exact h
    rw [ih h2, List.append_assoc]
    rfl

/-- Building a Python dict from a duplicate-free pair list is the
identity. -/
theorem dictOf_eq_self {ps : List (List Char × JsonVal)}
    (h : noDupKeys ps = true) : dictOf ps = ps := by
  exact dictOf_go (show noDupKeys ([] ++ ps) = true from h)

/-! ### The auto-assigned project id is fresh -/

theorem mem_id_lt_freshId {db : List ProjectRow} {r : ProjectRow}
    (h : r ∈ db) : r.id < freshId db := by
  induction h with
  | head t =>
    show r.id < (t.foldr (fun q m => max q.id m) 0 |> max r.id) + 1
    have : r.id ≤ max r.id (t.foldr (fun q m => max q.id m) 0) :=
      Nat.le_max_left _ _
    omega
  | tail b hmem ih =>
    rename_i l
    show r.id < (l.foldr (fun q m => max q.id m) 0 |> max b.id) + 1
    have hle : freshId l = l.foldr (fun q m => max q.id m) 0 + 1 := rfl
    have : l.foldr (fun q m => max q.id m) 0 ≤
        max b.id (l.foldr (fun q m => max q.id m) 0) := Nat.le_max_right _ _
    omega

/-! ### Round trip, part 3: the parser inverts the serializer -/

theorem numStop_nil : numStop ([] : List Char) := trivial

theorem numStop_rbracket {l : List Char} : numStop (']' :: l) :=
  ⟨by decide, by decide, by decide, by decide⟩

theorem numStop_rbrace {l : List Char} : numStop ('\x7d' :: l) :=
  ⟨by decide, by decide, by decide, by decide⟩

theorem numStop_comma {l : List Char} : numStop (',' :: l) :=
  ⟨by decide, by decide, by decide, by decide⟩

/-- The serialized text that follows an array item: nothing after the last
item, a `", "` separator before the rest otherwise. -/
def arrSep : List JsonVal → List Char
  | [] => []
  | w :: t => ',' :: ' ' :: dumpsArrItems (w :: t)

theorem dumpsArrItems_cons (v : JsonVal) (t : List JsonVal) :
    dumpsArrItems (v :: t) = jsonDumps v ++ arrSep t := by
  cases t with
  | nil => simp [dumpsArrItems, arrSep]
  | cons w t2 => rfl

/-- The serialized text that follows an object member. -/
def objSep : List (List Char × JsonVal) → List Char
  | [] => []
  | e :: t => ',' :: ' ' :: dumpsObjItems (e :: t)

theorem dumpsObjItems_cons (k : List Char) (v : JsonVal)
    (t : List (List Char × JsonVal)) :
    dumpsObjItems ((k, v) :: t) =
      ('"' :: (escapeStr k ++ '"' :: ':' :: ' ' :: jsonDumps v)) ++ objSep t := by
  cases t with
  | nil => simp [dumpsObjItems, objSep]
  | cons e t2 => rfl

theorem parseArrTail_cons {f : Nat} {c : Char} {l : List Char} (h : c ≠ ']') :
    parseArrTail (f + 1) (c :: l) =
      (match parseArrItems f (c :: l) with
       | .ok (xs, r) => .ok (.jarr xs, r)
       | .error m => .error m) := by
  rw [parseArrTail.eq_def]
  split
  · omega
  · simp_all

theorem parseObjTail_cons {f : Nat} {c : Char} {l : List Char} (h : c ≠ '\x7d') :
    parseObjTail (f + 1) (c :: l) =
      (match parseObjItems f (c :: l) with
       | .ok (ps, r) => .ok (.jobj (dictOf ps), r)
       | .error m => .error m) := by
  rw [parseObjTail.eq_def]
  split
  · omega
  · simp_all

theorem skipWs_cons_ws {c : Char} {t : List Char} (h : isWsChar c = true) :
    skipWs (c :: t) = skipWs t := by
  simp [skipWs, List.dropWhile_cons, h]

/-- Main round-trip induction: with enough fuel, parsing a serialized
well-formed value (or item list, or member list) consumes exactly the
serialization and returns the value. -/
theorem parse_dumps : ∀ fuel : Nat,
    (∀ v rest, wfVal v = true → nodes v ≤ fuel → numStop rest →
      parseVal fuel (jsonDumps v ++ rest) = .ok (v, rest)) ∧
    (∀ xs rest, wfList xs = true → xs ≠ [] → nodesList xs ≤ fuel →
      parseArrItems fuel (dumpsArrItems xs ++ ']' :: rest) = .ok (xs, rest)) ∧
    (∀ fs rest, wfFields fs = true → fs ≠ [] → nodesFields fs ≤ fuel →
      parseObjItems fuel (dumpsObjItems fs ++ '\x7d' :: rest) =
        .ok (fs, rest)) := by
  intro fuel
  induction fuel using Nat.strong_induction_on with
  | _ fuel IH =>
  refine ⟨?_, ?_, ?_⟩
  · intro v rest hwf hn hstop
    obtain ⟨f, rfl⟩ : ∃ f, fuel = f + 1 := by
      have := nodes_pos v
      exact ⟨fuel - 1, by omega⟩
    cases v with
    | jnull => rfl
    | jbool b => cases b <;> rfl
    | jstr s =>
      have hps := parseString_escape s rest
      have hshape : jsonDumps (.jstr s) ++ rest =
          '"' :: (escapeStr s ++ '"' :: rest) := by
        show '"' :: (escapeStr s ++ ['"']) ++ rest = _
        rw [List.cons_append, List.append_assoc]
        rfl
      rw [hshape]
      show (match parseString (escapeStr s ++ '"' :: rest) with
        | .ok (str, r) =>
          (.ok (.jstr str, r) : Except (List Char) (JsonVal × List Char))
        | .error m => .error m) = .ok (.jstr s, rest)
      rw [hps]
    | jnum lx =>
      have hnum : numOk lx = true := hwf
      obtain ⟨c, cs, hcons, hc⟩ := numOk_head hnum
      have hpn := parseNumber_extend hnum hstop
      subst hcons
      rw [List.cons_append] at hpn
      rw [show jsonDumps (.jnum (c :: cs)) = c :: cs from rfl, List.cons_append]
      have hprops : c ≠ '"' ∧ c ≠ '[' ∧ c ≠ '\x7b' ∧ c ≠ 't' ∧ c ≠ 'f' ∧
          c ≠ 'n' := by
        rcases hc with rfl | hd
        · exact ⟨by decide, by decide, by decide, by decide, by decide,
            by decide⟩
        · exact ⟨digit_ne _ hd (by decide), digit_ne _ hd (by decide),
            digit_ne _ hd (by decide), digit_ne _ hd (by decide),
            digit_ne _ hd (by decide), digit_ne _ hd (by decide)⟩
      obtain ⟨h1, h2, h3, h4, h5, h6⟩ := hprops
      simp only [parseVal, h1, h2, h3, h4, h5, h6, hc, if_false, if_true, hpn]
    | jarr xs =>
      have hwl : wfList xs = true := hwf
      have hn2 : 2 + nodesList xs ≤ f + 1 := by
        rw [show nodes (.jarr xs) = 2 + nodesList xs from rfl] at hn
        exact hn
      obtain ⟨f2, rfl⟩ : ∃ f2, f = f2 + 1 := ⟨f - 1, by omega⟩
      have hshape : jsonDumps (.jarr xs) ++ rest =
          '[' :: (dumpsArrItems xs ++ ']' :: rest) := by
        show '[' :: (dumpsArrItems xs ++ [']']) ++ rest = _
        rw [List.cons_append, List.append_assoc]
        rfl
      rw [hshape]
      show parseArrTail (f2 + 1) (skipWs (dumpsArrItems xs ++ ']' :: rest)) =
        .ok (.jarr xs, rest)
      cases xs with
      | nil =>
        show parseArrTail (f2 + 1) (skipWs (']' :: rest)) = .ok (.jarr [], rest)
        rw [skipWs_cons_not (by decide)]
        rfl
      | cons w t =>
        have hww : wfVal w = true :=
          ((Bool.and_eq_true _ _).mp (show (wfVal w && wfList t) = true
            from hwl)).1
        obtain ⟨cw, mw, hcw, hhw⟩ := jsonDumps_head hww
        have hhead : dumpsArrItems (w :: t) ++ ']' :: rest =
            cw :: (mw ++ arrSep t ++ ']' :: rest) := by
          rw [dumpsArrItems_cons, hcw]
          simp [List.cons_append, List.append_assoc]
        rw [hhead, skipWs_cons_not (headOk_props hhw).1,
          parseArrTail_cons (headOk_props hhw).2.1, ← hhead]
        have hB := (IH f2 (by omega)).2.1
        have hitems := hB (w :: t) rest hwl (by simp) (by omega)
        simp only [hitems]
    | jobj fs =>
      have h9 : (noDupKeys fs && wfFields fs) = true := hwf
      have hnd : noDupKeys fs = true := ((Bool.and_eq_true _ _).mp h9).1
      have hwff : wfFields fs = true := ((Bool.and_eq_true _ _).mp h9).2
      have hn2 : 2 + nodesFields fs ≤ f + 1 := by
        rw [show nodes (.jobj fs) = 2 + nodesFields fs from rfl] at hn
        exact hn
      obtain ⟨f2, rfl⟩ : ∃ f2, f = f2 + 1 := ⟨f - 1, by omega⟩
      have hshape : jsonDumps (.jobj fs) ++ rest =
          '\x7b' :: (dumpsObjItems fs ++ '\x7d' :: rest) := by
        show '\x7b' :: (dumpsObjItems fs ++ ['\x7d']) ++ rest = _
        rw [List.cons_append, List.append_assoc]
        rfl
      rw [hshape]
      show parseObjTail (f2 + 1) (skipWs (dumpsObjItems fs ++ '\x7d' :: rest)) =
        .ok (.jobj fs, rest)
      cases fs with
      | nil =>
        show parseObjTail (f2 + 1) (skipWs ('\x7d' :: rest)) =
          .ok (.jobj [], rest)
        rw [skipWs_cons_not (by decide)]
        rfl
      | cons e t =>
        obtain ⟨k, v⟩ := e
        have hhead : dumpsObjItems ((k, v) :: t) ++ '\x7d' :: rest =
            '"' :: ((escapeStr k ++ '"' :: ':' :: ' ' :: jsonDumps v) ++
              (objSep t ++ '\x7d' :: rest)) := by
          rw [dumpsObjItems_cons]
          simp [List.cons_append, List.append_assoc]
        rw [hhead, skipWs_cons_not (by decide),
          parseObjTail_cons (by decide), ← hhead]
        have hC := (IH f2 (by omega)).2.2
        have hitems := hC ((k, v) :: t) rest hwff (by simp) (by omega)
        simp only [hitems]
        show Except.ok (JsonVal.jobj (dictOf ((k, v) :: t)), rest) =
          Except.ok (JsonVal.jobj ((k, v) :: t), rest)
        rw [dictOf_eq_self hnd]
  · intro xs rest hwl hne hn
    obtain ⟨v, t, rfl⟩ : ∃ v t, xs = v :: t := by
      rcases xs with _ | ⟨v, t⟩
      · exact absurd rfl hne
      · exact ⟨v, t, rfl⟩
    have h9 : (wfVal v && wfList t) = true := hwl
    have hwv : wfVal v = true := ((Bool.and_eq_true _ _).mp h9).1
    have hwt : wfList t = true := ((Bool.and_eq_true _ _).mp h9).2
    have hn1 : 1 + nodes v + nodesList t ≤ fuel := by
      rw [show nodesList (v :: t) = 1 + nodes v + nodesList t from rfl] at hn
      exact hn
    have hnv := nodes_pos v
    obtain ⟨f, rfl⟩ : ∃ f, fuel = f + 1 := ⟨fuel - 1, by omega⟩
    have htext : dumpsArrItems (v :: t) ++ ']' :: rest =
        jsonDumps v ++ (arrSep t ++ ']' :: rest) := by
      rw [dumpsArrItems_cons, List.append_assoc]
    have hstop2 : numStop (arrSep t ++ ']' :: rest) := by
      cases t with
      | nil => exact numStop_rbracket
      | cons w t2 => exact numStop_comma
    have hA := (IH f (by omega)).1
    have hv := hA v (arrSep t ++ ']' :: rest) hwv (by omega) hstop2
    rw [htext]
    cases t with
    | nil =>
      have hs1 : skipWs (arrSep ([] : List JsonVal) ++ ']' :: rest) =
          ']' :: rest := skipWs_cons_not (by decide)
      simp only [parseArrItems, hv, hs1]
    | cons w t2 =>
      have hww : wfVal w = true :=
        ((Bool.and_eq_true _ _).mp (show (wfVal w && wfList t2) = true
          from hwt)).1
      obtain ⟨cw, mw, hcw, hhw⟩ := jsonDumps_head hww
      have hs1 : skipWs (arrSep (w :: t2) ++ ']' :: rest) =
          ',' :: (' ' :: (dumpsArrItems (w :: t2) ++ ']' :: rest)) :=
        skipWs_cons_not (by decide)
      have hh2 : dumpsArrItems (w :: t2) ++ ']' :: rest =
          cw :: (mw ++ arrSep t2 ++ ']' :: rest) := by
        rw [dumpsArrItems_cons, hcw]
        simp [List.cons_append, List.append_assoc]
      have hskip : skipWs (' ' :: (dumpsArrItems (w :: t2) ++ ']' :: rest)) =
          dumpsArrItems (w :: t2) ++ ']' :: rest := by
        rw [skipWs_cons_ws (by decide),
          hh2, skipWs_cons_not (headOk_props hhw).1, ← hh2]
      have hB2 := (IH f (by omega)).2.1
      have hrec := hB2 (w :: t2) rest hwt (by simp) (by omega)
      simp only [parseArrItems, hv, hs1, hskip, hrec]
  · intro fs rest hwff hne hn
    obtain ⟨k, v, t, rfl⟩ : ∃ k v t, fs = (k, v) :: t := by
      rcases fs with _ | ⟨⟨k, v⟩, t⟩
      · exact absurd rfl hne
      · exact ⟨k, v, t, rfl⟩
    have h9 : (wfVal v && wfFields t) = true := hwff
    have hwv : wfVal v = true := ((Bool.and_eq_true _ _).mp h9).1
    have hwt : wfFields t = true := ((Bool.and_eq_true _ _).mp h9).2
    have hn1 : 1 + nodes v + nodesFields t ≤ fuel := by
      rw [show nodesFields ((k, v) :: t) = 1 + nodes v + nodesFields t
        from rfl] at hn
      exact hn
    have hnv := nodes_pos v
    obtain ⟨f, rfl⟩ : ∃ f, fuel = f + 1 := ⟨fuel - 1, by omega⟩
    have hhead : dumpsObjItems ((k, v) :: t) ++ '\x7d' :: rest =
        '"' :: (escapeStr k ++ '"' :: (':' :: (' ' ::
          (jsonDumps v ++ (objSep t ++ '\x7d' :: rest))))) := by
      rw [dumpsObjItems_cons]
      simp [List.cons_append, List.append_assoc]
    have hps := parseString_escape k
      (':' :: (' ' :: (jsonDumps v ++ (objSep t ++ '\x7d' :: rest))))
    have hstop2 : numStop (objSep t ++ '\x7d' :: rest) := by
      cases t with
      | nil => exact numStop_rbrace
      | cons e t2 => exact numStop_comma
    have hA := (IH f (by omega)).1
    have hv := hA v (objSep t ++ '\x7d' :: rest) hwv (by omega) hstop2
    obtain ⟨cv, mv, hcv, hhv⟩ := jsonDumps_head hwv
    have hs1 : skipWs (':' :: (' ' ::
        (jsonDumps v ++ (objSep t ++ '\x7d' :: rest)))) =
        ':' :: (' ' :: (jsonDumps v ++ (objSep t ++ '\x7d' :: rest))) :=
      skipWs_cons_not (by decide)
    have hskip : skipWs (' ' :: (jsonDumps v ++ (objSep t ++ '\x7d' :: rest))) =
        jsonDumps v ++ (objSep t ++ '\x7d' :: rest) := by
      rw [skipWs_cons_ws (by decide),
        hcv, List.cons_append, skipWs_cons_not (headOk_props hhv).1,
        ← List.cons_append, ← hcv]
    rw [hhead]
    cases t with
    | nil =>
      have hs2 : skipWs (objSep ([] : List (List Char × JsonVal)) ++
          '\x7d' :: rest) = '\x7d' :: rest := skipWs_cons_not (by decide)
      simp only [parseObjItems, hps, hs1, hskip, hv, hs2]
    | cons e t2 =>
      obtain ⟨k2, v2⟩ := e
      have hs2 : skipWs (objSep ((k2, v2) :: t2) ++ '\x7d' :: rest) =
          ',' :: (' ' :: (dumpsObjItems ((k2, v2) :: t2) ++ '\x7d' :: rest)) :=
        skipWs_cons_not (by decide)
      have hh2 : dumpsObjItems ((k2, v2) :: t2) ++ '\x7d' :: rest =
          '"' :: ((escapeStr k2 ++ '"' :: ':' :: ' ' :: jsonDumps v2) ++
            (objSep t2 ++ '\x7d' :: rest)) := by
        rw [dumpsObjItems_cons]
        simp [List.cons_append, List.append_assoc]
      have hskip2 : skipWs (' ' :: (dumpsObjItems ((k2, v2) :: t2) ++
          '\x7d' :: rest)) =
          dumpsObjItems ((k2, v2) :: t2) ++ '\x7d' :: rest := by
        rw [skipWs_cons_ws (by decide),
          hh2, skipWs_cons_not (by decide), ← hh2]
      have hC2 := (IH f (by omega)).2.2
      have hrec := hC2 ((k2, v2) :: t2) rest hwt (by simp) (by omega)
      simp only [parseObjItems, hps, hs1, hskip, hv, hs2, hskip2, hrec]

/-- `json.loads (json.dumps v) = v` for every well-formed value. -/
theorem jsonLoads_dumps {v : JsonVal} (h : wfVal v = true) :
    jsonLoads (jsonDumps v) = .ok v := by
  unfold jsonLoads
  rw [strip_dumps h]
  have hA := (parse_dumps (3 * (jsonDumps v).length + 3)).1
  have hle := nodes_le v
  have hv := hA v [] h (by omega) numStop_nil
  rw [List.append_nil] at hv
  simp only [hv]
  rfl

/-! ### Every lexeme the number lexer produces re-lexes to itself -/

def nonDigitHead : List Char → Prop
  | [] => True
  | c :: _ => c.isDigit = false

theorem nonDigitHead_takeWhile {rest : List Char} (h : nonDigitHead rest) :
    rest.takeWhile Char.isDigit = [] := by
  rcases rest with _ | ⟨c, t⟩
  · rfl
  · have h2 : c.isDigit = false := h
    exact List.takeWhile_cons_of_neg (by simp [h2])

theorem nonDigitHead_dropWhile {rest : List Char} (h : nonDigitHead rest) :
    rest.dropWhile Char.isDigit = rest := by
  rcases rest with _ | ⟨c, t⟩
  · rfl
  · have h2 : c.isDigit = false := h
    rw [List.dropWhile_cons]
    simp [h2]

theorem dropWhile_all {l : List Char} (h : ∀ x ∈ l, x.isDigit = true) :
    l.dropWhile Char.isDigit = [] :=
  List.dropWhile_eq_nil_iff.mpr (fun x hx => by simp [h x hx])

theorem takeWhile_all {l : List Char} (h : ∀ x ∈ l, x.isDigit = true) :
    l.takeWhile Char.isDigit = l := by
  have h2 := List.takeWhile_append_dropWhile Char.isDigit l
  rw [dropWhile_all h, List.append_nil] at h2
  exact h2

theorem parseIntPart_restart {s ip s2 rest : List Char}
    (h : parseIntPart s = .ok (ip, s2)) (hrest : nonDigitHead rest) :
    parseIntPart (ip ++ rest) = .ok (ip, rest) := by
  rcases s with _ | ⟨c, cs⟩
  · exact absurd h (by simp [parseIntPart])
  by_cases hc0 : c = '0'
  · simp only [parseIntPart, hc0, if_true, Except.ok.injEq, Prod.mk.injEq] at h
    obtain ⟨h1, _⟩ := h
    subst h1
    rfl
  · by_cases hcd : c.isDigit = true
    · simp only [parseIntPart, hc0, hcd, if_false, if_true, Except.ok.injEq,
        Prod.mk.injEq] at h
      obtain ⟨h1, _⟩ := h
      subst h1
      rw [List.cons_append]
      simp only [parseIntPart, hc0, hcd, if_false, if_true]
      have hall : ∀ x ∈ cs.takeWhile Char.isDigit, x.isDigit = true :=
        fun x hx => List.mem_takeWhile_imp hx
      obtain ⟨htw, hdw⟩ := span_extend_full (dropWhile_all hall)
        (nonDigitHead_takeWhile hrest) (nonDigitHead_dropWhile hrest)
      rw [htw, hdw, takeWhile_all hall]
    · exact absurd h (by simp [parseIntPart, hc0, hcd])

/-- Shape of a non-empty fraction lexeme. -/
theorem parseFracPart_shape {s2 : List Char} :
    (parseFracPart s2).1 = [] ∨
    ∃ d0 ds, (parseFracPart s2).1 = '.' :: d0 :: ds ∧
      (∀ x ∈ d0 :: ds, x.isDigit = true) := by
  unfold parseFracPart
  split
  · rename_i cs
    rcases htw : cs.takeWhile Char.isDigit with _ | ⟨d0, ds⟩
    · exact Or.inl rfl
    · right
      exact ⟨d0, ds, rfl, fun x hx => List.mem_takeWhile_imp (htw ▸ hx)⟩
  · exact Or.inl rfl

/-- Shape of a non-empty exponent lexeme. -/
theorem parseExpPart_shape {s : List Char} :
    (parseExpPart s).1 = [] ∨
    ∃ e d0 ds, (e = 'e' ∨ e = 'E') ∧ (∀ x ∈ d0 :: ds, x.isDigit = true) ∧
      ((parseExpPart s).1 = e :: d0 :: ds ∨
       ∃ c, (c = '+' ∨ c = '-') ∧ (parseExpPart s).1 = e :: c :: d0 :: ds) := by
  unfold parseExpPart
  split
  · rename_i e cs
    by_cases he : e = 'e' ∨ e = 'E'
    · simp only [he, if_true]
      rcases cs with _ | ⟨c, cs2⟩
      · exact Or.inl rfl
      by_cases hsign : c = '+' ∨ c = '-'
      · simp only [hsign, if_true]
        rcases htw : cs2.takeWhile Char.isDigit with _ | ⟨d0, ds⟩
        · exact Or.inl rfl
        · right
          exact ⟨e, d0, ds, he, fun x hx => List.mem_takeWhile_imp (htw ▸ hx),
            Or.inr ⟨c, hsign, rfl⟩⟩
      · simp only [hsign, if_false]
        rcases htw : (c :: cs2).takeWhile Char.isDigit with _ | ⟨d0, ds⟩
        · exact Or.inl rfl
        · right
          exact ⟨e, d0, ds, he, fun x hx => List.mem_takeWhile_imp (htw ▸ hx),
            Or.inl rfl⟩
    · simp only [he, if_false]
      first
      | exact Or.inl trivial
      | exact Or.inl rfl
  · exact Or.inl rfl

theorem parseFracPart_restart {f1 rest : List Char}
    (hshape : f1 = [] ∨ ∃ d0 ds, f1 = '.' :: d0 :: ds ∧
      (∀ x ∈ d0 :: ds, x.isDigit = true))
    (hrest : rest = [] ∨ ∃ e t, rest = e :: t ∧ (e = 'e' ∨ e = 'E')) :
    parseFracPart (f1 ++ rest) = (f1, rest) := by
  have hnd : nonDigitHead rest := by
    rcases hrest with rfl | ⟨e, t, rfl, he⟩
    · trivial
    · show e.isDigit = false
      rcases he with rfl | rfl <;> decide
  rcases hshape with rfl | ⟨d0, ds, rfl, hall⟩
  · rcases hrest with rfl | ⟨e, t, rfl, he⟩
    · rfl
    · exact parseFracPart_nodot (by rcases he with rfl | rfl <;> decide)
  · rw [List.cons_append]
    obtain ⟨htw, hdw⟩ := span_extend_full (dropWhile_all hall)
      (nonDigitHead_takeWhile hnd) (nonDigitHead_dropWhile hnd)
    rw [takeWhile_all hall] at htw
    rw [parseFracPart_dot_some htw, hdw]

theorem parseExpPart_restart {s : List Char} :
    parseExpPart ((parseExpPart s).1) = ((parseExpPart s).1, []) := by
  rcases @parseExpPart_shape s with he0 | ⟨e, d0, ds, he, hall, hcase⟩
  · rw [he0]
    rfl
  · have htw := takeWhile_all hall
    have hdw := dropWhile_all hall
    rcases hcase with hq | ⟨c, hc, hq⟩
    · rw [hq]
      have hd0 : ¬ (d0 = '+' ∨ d0 = '-') := by
        have h1 := hall d0 (by simp)
        rintro (rfl | rfl) <;> exact absurd h1 (by decide)
      rw [parseExpPart_nosign_some he hd0 htw, hdw]
    · rw [hq]
      rw [parseExpPart_sign_some he hc htw, hdw]

theorem parseNumBody_idem {s lx r : List Char}
    (h : parseNumBody s = .ok (lx, r)) :
    parseNumBody lx = .ok (lx, []) := by
  unfold parseNumBody at h
  rcases hip : parseIntPart s with m | ⟨ip, s2⟩ <;> rw [hip] at h
  · exact absurd h (by simp)
  simp only [Except.ok.injEq, Prod.mk.injEq] at h
  obtain ⟨h1, _⟩ := h
  have hf := @parseFracPart_shape s2
  have hex := @parseExpPart_shape (parseFracPart s2).2
  have hexphead : (parseExpPart (parseFracPart s2).2).1 = [] ∨
      ∃ e t, (parseExpPart (parseFracPart s2).2).1 = e :: t ∧
        (e = 'e' ∨ e = 'E') := by
    rcases hex with he0 | ⟨e, d0, ds, he, hall, hcase⟩
    · exact Or.inl he0
    · rcases hcase with hq | ⟨c, hc, hq⟩
      · exact Or.inr ⟨e, d0 :: ds, hq, he⟩
      · exact Or.inr ⟨e, c :: d0 :: ds, hq, he⟩
  have hhead : nonDigitHead ((parseFracPart s2).1 ++
      (parseExpPart (parseFracPart s2).2).1) := by
    rcases hf with hf0 | ⟨d0, ds, hq, _⟩
    · rw [hf0, List.nil_append]
      rcases hexphead with he0 | ⟨e, t, hq2, he⟩
      · rw [he0]
        trivial
      · rw [hq2]
        show e.isDigit = false
        rcases he with rfl | rfl <;> decide
    · rw [hq, List.cons_append]
      show ('.').isDigit = false
      decide
  have ha := parseIntPart_restart hip hhead
  have hb := parseFracPart_restart hf hexphead
  have hc := @parseExpPart_restart (parseFracPart s2).2
  rw [← h1, List.append_assoc]
  unfold parseNumBody
  rw [ha]
  dsimp only
  rw [hb]
  dsimp only
  rw [hc]
  dsimp only
  rw [← List.append_assoc]

/-- Every lexeme the number lexer accepts is well-formed. -/
theorem parseNumber_idem {s lx r : List Char}
    (h : parseNumber s = .ok (lx, r)) : numOk lx = true := by
  rcases s with _ | ⟨c0, cs⟩
  · exact absurd h (by simp [parseNumber, parseNumBody, parseIntPart])
  by_cases hneg : c0 = '-'
  · subst hneg
    have h9 : (match parseNumBody cs with
        | Except.error m =>
          (Except.error m : Except (List Char) (List Char × List Char))
        | Except.ok (lxb, rb) => Except.ok ('-' :: lxb, rb)) =
          Except.ok (lx, r) := h
    rcases hb : parseNumBody cs with m | ⟨lxb, rb⟩ <;> rw [hb] at h9
    · exact absurd h9 (by simp)
    · simp only [Except.ok.injEq, Prod.mk.injEq] at h9
      obtain ⟨h1, _⟩ := h9
      have hidem := parseNumBody_idem hb
      rw [← h1]
      unfold numOk
      rw [show parseNumber ('-' :: lxb) = (match parseNumBody lxb with
        | Except.error m =>
          (Except.error m : Except (List Char) (List Char × List Char))
        | Except.ok (lxb2, rb2) => Except.ok ('-' :: lxb2, rb2)) from rfl,
        hidem]
      simp
  · rw [parseNumber_not_neg hneg] at h
    have hidem := parseNumBody_idem h
    obtain ⟨c, cs2, hcons, hd⟩ := parseNumBody_head h
    unfold numOk
    rw [hcons, parseNumber_not_neg (digit_ne _ hd (by decide)), ← hcons, hidem]
    simp

/-! ### `dictOf` output is duplicate-free and preserves well-formedness -/

theorem hasKeyB_dictUpd {m : List (List Char × JsonVal)} {k k3 : List Char}
    {v : JsonVal} :
    hasKeyB (dictUpd m k v) k3 = (hasKeyB m k3 || (k == k3)) := by
  induction m with
  | nil => simp [dictUpd, hasKeyB]
  | cons p t ih =>
    obtain ⟨k2, v2⟩ := p
    by_cases he : k2 = k
    · subst he
      rw [show dictUpd ((k2, v2) :: t) k2 v = (k2, v) :: t from by
        rw [dictUpd]
        exact if_pos rfl]
      show ((k2 == k3) || hasKeyB t k3) =
        ((k2 == k3) || hasKeyB t k3 || (k2 == k3))
      cases h23 : (k2 == k3) <;> simp [h23]
    · rw [show dictUpd ((k2, v2) :: t) k v = (k2, v2) :: dictUpd t k v from by
        rw [dictUpd]
        exact if_neg he]
      show ((k2 == k3) || hasKeyB (dictUpd t k v) k3) =
        ((k2 == k3) || hasKeyB t k3 || (k == k3))
      rw [ih, Bool.or_assoc]

theorem noDupKeys_dictUpd {m : List (List Char × JsonVal)} {k : List Char}
    {v : JsonVal} (h : noDupKeys m = true) :
    noDupKeys (dictUpd m k v) = true := by
  induction m with
  | nil => rfl
  | cons p t ih =>
    obtain ⟨k2, v2⟩ := p
    have h9 : (!(hasKeyB t k2) && noDupKeys t) = true := h
    rcases (Bool.and_eq_true _ _).mp h9 with ⟨h1, h2⟩
    have hk2 : hasKeyB t k2 = false := by simpa using h1
    by_cases he : k2 = k
    · subst he
      rw [show dictUpd ((k2, v2) :: t) k2 v = (k2, v) :: t from by
        rw [dictUpd]
        exact if_pos rfl]
      show (!(hasKeyB t k2) && noDupKeys t) = true
      simp [hk2, h2]
    · rw [show dictUpd ((k2, v2) :: t) k v = (k2, v2) :: dictUpd t k v from by
        rw [dictUpd]
        exact if_neg he]
      show (!(hasKeyB (dictUpd t k v) k2) && noDupKeys (dictUpd t k v)) = true
      rw [hasKeyB_dictUpd, hk2]
      have hkk : (k == k2) = false :=
        beq_eq_false_iff_ne.mpr (fun hkk => he hkk.symm)
      rw [hkk]
      simp [ih h2]

theorem wfFields_dictUpd {m : List (List Char × JsonVal)} {k : List Char}
    {v : JsonVal} (hm : wfFields m = true) (hv : wfVal v = true) :
    wfFields (dictUpd m k v) = true := by
  induction m with
  | nil =>
    show (wfVal v && wfFields []) = true
    simp [hv, wfFields]
  | cons p t ih =>
    obtain ⟨k2, v2⟩ := p
    have h9 : (wfVal v2 && wfFields t) = true := hm
    rcases (Bool.and_eq_true _ _).mp h9 with ⟨h1, h2⟩
    by_cases he : k2 = k
    · subst he
      rw [show dictUpd ((k2, v2) :: t) k2 v = (k2, v) :: t from by
        rw [dictUpd]
        exact if_pos rfl]
      show (wfVal v && wfFields t) = true
      simp [hv, h2]
    · rw [show dictUpd ((k2, v2) :: t) k v = (k2, v2) :: dictUpd t k v from by
        rw [dictUpd]
        exact if_neg he]
      show (wfVal v2 && wfFields (dictUpd t k v)) = true
      simp [h1, ih h2]

theorem dictOf_fold_noDup {ps : List (List Char × JsonVal)} :
    ∀ {acc : List (List Char × JsonVal)}, noDupKeys acc = true →
      noDupKeys (ps.foldl (fun m p => dictUpd m p.1 p.2) acc) = true := by
  induction ps with
  | nil =>
    intro acc h
    exact h
  | cons p t ih =>
    intro acc h
    rw [List.foldl_cons]
    exact ih (noDupKeys_dictUpd h)

theorem noDupKeys_dictOf {ps : List (List Char × JsonVal)} :
    noDupKeys (dictOf ps) = true :=
  dictOf_fold_noDup rfl

theorem dictOf_fold_wf {ps : List (List Char × JsonVal)} :
    ∀ {acc : List (List Char × JsonVal)}, wfFields acc = true →
      wfFields ps = true →
      wfFields (ps.foldl (fun m p => dictUpd m p.1 p.2) acc) = true := by
  induction ps with
  | nil =>
    intro acc h _
    exact h
  | cons p t ih =>
    intro acc h hps
    obtain ⟨k, v⟩ := p
    have h9 : (wfVal v && wfFields t) = true := hps
    rw [List.foldl_cons]
    exact ih (wfFields_dictUpd h ((Bool.and_eq_true _ _).mp h9).1)
      ((Bool.and_eq_true _ _).mp h9).2

theorem wfFields_dictOf {ps : List (List Char × JsonVal)}
    (h : wfFields ps = true) : wfFields (dictOf ps) = true :=
  dictOf_fold_wf rfl h

/-! ### Everything the parser returns is well-formed -/

theorem parse_wf : ∀ fuel : Nat,
    (∀ s v r, parseVal fuel s = .ok (v, r) → wfVal v = true) ∧
    (∀ s xs r, parseArrItems fuel s = .ok (xs, r) → wfList xs = true) ∧
    (∀ s ps r, parseObjItems fuel s = .ok (ps, r) → wfFields ps = true) := by
  intro fuel
  induction fuel using Nat.strong_induction_on with
  | _ fuel IH =>
  rcases fuel with _ | f
  · refine ⟨?_, ?_, ?_⟩ <;> intro s v r h <;>
      exact absurd h (by simp [parseVal, parseArrItems, parseObjItems])
  refine ⟨?_, ?_, ?_⟩
  · intro s v r h
    rcases s with _ | ⟨c, cs⟩
    · exact absurd h (by simp [parseVal])
    by_cases hq : c = '"'
    · subst hq
      have h2 : (match parseString cs with
        | .ok (str, r2) =>
          (.ok (.jstr str, r2) : Except (List Char) (JsonVal × List Char))
        | .error m => .error m) = .ok (v, r) := h
      rcases hps : parseString cs with m | ⟨str, r2⟩ <;> rw [hps] at h2
      · exact absurd h2 (by simp)
      · simp only [Except.ok.injEq, Prod.mk.injEq] at h2
        obtain ⟨h3, _⟩ := h2
        rw [← h3]
        rfl
    by_cases harr : c = '['
    · subst harr
      have h2 : parseArrTail f (skipWs cs) = .ok (v, r) := h
      rcases f with _ | f2
      · exact absurd h2 (by simp [parseArrTail])
      rcases hsw : skipWs cs with _ | ⟨c2, cs2⟩ <;> rw [hsw] at h2
      · have h3 : (match parseArrItems f2 ([] : List Char) with
          | .ok (xs, r2) =>
            (.ok (.jarr xs, r2) : Except (List Char) (JsonVal × List Char))
          | .error m => .error m) = .ok (v, r) := h2
        rcases hpa : parseArrItems f2 [] with m | ⟨xs, r2⟩ <;> rw [hpa] at h3
        · exact absurd h3 (by simp)
        · simp only [Except.ok.injEq, Prod.mk.injEq] at h3
          obtain ⟨h4, _⟩ := h3
          rw [← h4]
          show wfList xs = true
          exact (IH f2 (by omega)).2.1 [] xs r2 hpa
      · by_cases hrb : c2 = ']'
        · subst hrb
          have h3 : (Except.ok (JsonVal.jarr [], cs2) :
              Except (List Char) (JsonVal × List Char)) = .ok (v, r) := h2
          simp only [Except.ok.injEq, Prod.mk.injEq] at h3
          obtain ⟨h4, _⟩ := h3
          rw [← h4]
          rfl
        · rw [parseArrTail_cons hrb] at h2
          rcases hpa : parseArrItems f2 (c2 :: cs2) with m | ⟨xs, r2⟩ <;>
            rw [hpa] at h2
          · exact absurd h2 (by simp)
          · simp only [Except.ok.injEq, Prod.mk.injEq] at h2
            obtain ⟨h4, _⟩ := h2
            rw [← h4]
            show wfList xs = true
            exact (IH f2 (by omega)).2.1 (c2 :: cs2) xs r2 hpa
    by_cases hbr : c = '\x7b'
    · subst hbr
      have h2 : parseObjTail f (skipWs cs) = .ok (v, r) := h
      rcases f with _ | f2
      · exact absurd h2 (by simp [parseObjTail])
      rcases hsw : skipWs cs with _ | ⟨c2, cs2⟩ <;> rw [hsw] at h2
      · have h3 : (match parseObjItems f2 ([] : List Char) with
          | .ok (ps, r2) =>
            (.ok (.jobj (dictOf ps), r2) :
              Except (List Char) (JsonVal × List Char))
          | .error m => .error m) = .ok (v, r) := h2
        rcases hpa : parseObjItems f2 [] with m | ⟨ps, r2⟩ <;> rw [hpa] at h3
        · exact absurd h3 (by simp)
        · simp only [Except.ok.injEq, Prod.mk.injEq] at h3
          obtain ⟨h4, _⟩ := h3
          rw [← h4]
          show (noDupKeys (dictOf ps) && wfFields (dictOf ps)) = true
          have hwf := (IH f2 (by omega)).2.2 [] ps r2 hpa
          simp [noDupKeys_dictOf, wfFields_dictOf hwf]
      · by_cases hrb : c2 = '\x7d'
        · subst hrb
          have h3 : (Except.ok (JsonVal.jobj [], cs2) :
              Except (List Char) (JsonVal × List Char)) = .ok (v, r) := h2
          simp only [Except.ok.injEq, Prod.mk.injEq] at h3
          obtain ⟨h4, _⟩ := h3
          rw [← h4]
          rfl
        · rw [parseObjTail_cons hrb] at h2
          rcases hpa : parseObjItems f2 (c2 :: cs2) with m | ⟨ps, r2⟩ <;>
            rw [hpa] at h2
          · exact absurd h2 (by simp)
          · simp only [Except.ok.injEq, Prod.mk.injEq] at h2
            obtain ⟨h4, _⟩ := h2
            rw [← h4]
            show (noDupKeys (dictOf ps) && wfFields (dictOf ps)) = true
            have hwf := (IH f2 (by omega)).2.2 (c2 :: cs2) ps r2 hpa
            simp [noDupKeys_dictOf, wfFields_dictOf hwf]
    by_cases ht : c = 't'
    · subst ht
      have h2 : (match cs with
        | 'r' :: 'u' :: 'e' :: r2 =>
          (.ok (.jbool true, r2) : Except (List Char) (JsonVal × List Char))
        | _ => .error msgExpectingValue) = .ok (v, r) := h
      split at h2
      · simp only [Except.ok.injEq, Prod.mk.injEq] at h2
        obtain ⟨h3, _⟩ := h2
        rw [← h3]
        rfl
      · exact absurd h2 (by simp)
    by_cases hf0 : c = 'f'
    · subst hf0
      have h2 : (match cs with
        | 'a' :: 'l' :: 's' :: 'e' :: r2 =>
          (.ok (.jbool false, r2) : Except (List Char) (JsonVal × List Char))
        | _ => .error msgExpectingValue) = .ok (v, r) := h
      split at h2
      · simp only [Except.ok.injEq, Prod.mk.injEq] at h2
        obtain ⟨h3, _⟩ := h2
        rw [← h3]
        rfl
      · exact absurd h2 (by simp)
    by_cases hn0 : c = 'n'
    · subst hn0
      have h2 : (match cs with
        | 'u' :: 'l' :: 'l' :: r2 =>
          (.ok (.jnull, r2) : Except (List Char) (JsonVal × List Char))
        | _ => .error msgExpectingValue) = .ok (v, r) := h
      split at h2
      · simp only [Except.ok.injEq, Prod.mk.injEq] at h2
        obtain ⟨h3, _⟩ := h2
        rw [← h3]
        rfl
      · exact absurd h2 (by simp)
    by_cases hnum : c = '-' ∨ c.isDigit = true
    · simp only [parseVal, hq, harr, hbr, ht, hf0, hn0, hnum, if_false,
        if_true] at h
      rcases hpn : parseNumber (c :: cs) with m | ⟨lx, r2⟩ <;> rw [hpn] at h
      · exact absurd h (by simp)
      · simp only [Except.ok.injEq, Prod.mk.injEq] at h
        obtain ⟨h3, _⟩ := h
        rw [← h3]
        exact parseNumber_idem hpn
    · simp only [parseVal, hq, harr, hbr, ht, hf0, hn0, hnum, if_false] at h
      exact absurd h (by simp)
  · intro s xs r h
    have h2 : (match parseVal f s with
      | .error m => (.error m : Except (List Char) (List JsonVal × List Char))
      | .ok (v, r1) =>
        match skipWs r1 with
        | ',' :: r2 =>
          match parseArrItems f (skipWs r2) with
          | .ok (vs, r3) => .ok (v :: vs, r3)
          | .error m => .error m
        | ']' :: r2 => .ok ([v], r2)
        | _ => .error msgExpectingDelimiter) = .ok (xs, r) := h
    rcases hpv : parseVal f s with m | ⟨v, r1⟩ <;> rw [hpv] at h2
    · exact absurd h2 (by simp)
    dsimp only at h2
    have hwv := (IH f (by omega)).1 s v r1 hpv
    rcases hsw : skipWs r1 with _ | ⟨c2, cs2⟩ <;> rw [hsw] at h2
    · exact absurd h2 (by simp)
    by_cases hc2 : c2 = ','
    · subst hc2
      have h3 : (match parseArrItems f (skipWs cs2) with
        | .ok (vs, r3) =>
          (.ok (v :: vs, r3) : Except (List Char) (List JsonVal × List Char))
        | .error m => .error m) = .ok (xs, r) := h2
      rcases hpa : parseArrItems f (skipWs cs2) with m | ⟨vs, r3⟩ <;>
        rw [hpa] at h3
      · exact absurd h3 (by simp)
      · simp only [Except.ok.injEq, Prod.mk.injEq] at h3
        obtain ⟨h4, _⟩ := h3
        rw [← h4]
        show (wfVal v && wfList vs) = true
        have hvs := (IH f (by omega)).2.1 (skipWs cs2) vs r3 hpa
        simp [hwv, hvs]
    by_cases hrb : c2 = ']'
    · subst hrb
      have h3 : (Except.ok ([v], cs2) :
          Except (List Char) (List JsonVal × List Char)) = .ok (xs, r) := h2
      simp only [Except.ok.injEq, Prod.mk.injEq] at h3
      obtain ⟨h4, _⟩ := h3
      rw [← h4]
      show (wfVal v && wfList []) = true
      simp [hwv, wfList]
    · split at h2
      · rename_i x r2 heq
        exact absurd heq (by simp [hc2])
      · rename_i x r2 heq
        exact absurd heq (by simp [hrb])
      · exact absurd h2 (by simp)
  · intro s ps r h
    rcases s with _ | ⟨c, cs⟩
    · exact absurd h (by simp [parseObjItems])
    by_cases hq : c = '"'
    · subst hq
      have h2 : (match parseString cs with
        | .error m =>
          (.error m : Except (List Char) (List (List Char × JsonVal) × List Char))
        | .ok (k, r1) =>
          match skipWs r1 with
          | ':' :: r2 =>
            match parseVal f (skipWs r2) with
            | .error m => .error m
            | .ok (v, r3) =>
              match skipWs r3 with
              | ',' :: r4 =>
                match parseObjItems f (skipWs r4) with
                | .ok (ps2, r5) => .ok ((k, v) :: ps2, r5)
                | .error m => .error m
              | '\x7d' :: r4 => .ok ([(k, v)], r4)
              | _ => .error msgExpectingDelimiter
          | _ => .error msgExpectingColon) = .ok (ps, r) := h
      rcases hps : parseString cs with m | ⟨k, r1⟩ <;> rw [hps] at h2
      · exact absurd h2 (by simp)
      dsimp only at h2
      rcases hsw : skipWs r1 with _ | ⟨c2, cs2⟩ <;> rw [hsw] at h2
      · exact absurd h2 (by simp)
      by_cases hc2 : c2 = ':'
      · subst hc2
        have h3 : (match parseVal f (skipWs cs2) with
          | .error m =>
            (.error m :
              Except (List Char) (List (List Char × JsonVal) × List Char))
          | .ok (v, r3) =>
            match skipWs r3 with
            | ',' :: r4 =>
              match parseObjItems f (skipWs r4) with
              | .ok (ps2, r5) => .ok ((k, v) :: ps2, r5)
              | .error m => .error m
            | '\x7d' :: r4 => .ok ([(k, v)], r4)
            | _ => .error msgExpectingDelimiter) = .ok (ps, r) := h2
        rcases hpv : parseVal f (skipWs cs2) with m | ⟨v, r3⟩ <;> rw [hpv] at h3
        · exact absurd h3 (by simp)
        dsimp only at h3
        have hwv := (IH f (by omega)).1 (skipWs cs2) v r3 hpv
        rcases hsw3 : skipWs r3 with _ | ⟨c3, cs3⟩ <;> rw [hsw3] at h3
        · exact absurd h3 (by simp)
        by_cases hc3 : c3 = ','
        · subst hc3
          have h4 : (match parseObjItems f (skipWs cs3) with
            | .ok (ps2, r5) =>
              (.ok ((k, v) :: ps2, r5) :
                Except (List Char) (List (List Char × JsonVal) × List Char))
            | .error m => .error m) = .ok (ps, r) := h3
          rcases hpo : parseObjItems f (skipWs cs3) with m | ⟨ps2, r5⟩ <;>
            rw [hpo] at h4
          · exact absurd h4 (by simp)
          · simp only [Except.ok.injEq, Prod.mk.injEq] at h4
            obtain ⟨h5, _⟩ := h4
            rw [← h5]
            show (wfVal v && wfFields ps2) = true
            have hps2 := (IH f (by omega)).2.2 (skipWs cs3) ps2 r5 hpo
            simp [hwv, hps2]
        by_cases hrb : c3 = '\x7d'
        · subst hrb
          have h4 : (Except.ok ([(k, v)], cs3) :
              Except (List Char) (List (List Char × JsonVal) × List Char)) =
              .ok (ps, r) := h3
          simp only [Except.ok.injEq, Prod.mk.injEq] at h4
          obtain ⟨h5, _⟩ := h4
          rw [← h5]
          show (wfVal v && wfFields []) = true
          simp [hwv, wfFields]
        · split at h3
          · rename_i x r4 heq
            exact absurd heq (by simp [hc3])
          · rename_i x r4 heq
            exact absurd heq (by simp [hrb])
          · exact absurd h3 (by simp)
      · split at h2
        · rename_i x r2 heq
          exact absurd heq (by simp [hc2])
        · exact absurd h2 (by simp)
    · simp only [parseObjItems] at h
      split at h
      · rename_i x cs9 heq
        exact absurd heq (by simp [hq])
      · exact absurd h (by simp)

/-- The failure dictionary is itself well-formed. -/
theorem wf_errorDict {e : List Char} : wfVal (errorDict e) = true := rfl

/-- Whatever `json.loads` returns is well-formed. -/
theorem jsonLoads_wf {s : List Char} {v : JsonVal}
    (h : jsonLoads s = .ok v) : wfVal v = true := by
  unfold jsonLoads at h
  dsimp only at h
  rcases hpv : parseVal (3 * (rstripWs (skipWs s)).length + 3)
      (rstripWs (skipWs s)) with m | ⟨v2, rest⟩ <;> rw [hpv] at h
  · exact absurd h (by simp)
  · dsimp only at h
    have hwf := (parse_wf _).1 _ v2 rest hpv
    by_cases hr : skipWs rest = []
    · rw [if_pos hr] at h
      obtain rfl : v2 = v := by injection h
      exact hwf
    · rw [if_neg hr] at h
      exact absurd h (by simp)

/-- Whatever the response post-processing returns is well-formed. -/
theorem processText_wf {t : List Char} : wfVal (processText t) = true := by
  unfold processText
  rcases hj : jsonLoads (extractText t) with e | v
  · exact wf_errorDict
  · exact jsonLoads_wf hj

/-- Whatever `generate_gemini_timeline` returns is well-formed. -/
theorem generate_result_wf
    (pm fm : List Char → Except (List Char) (List Char))
    (d l : List Char) :
    wfVal (generate_gemini_timeline pm fm d l) = true := by
  unfold generate_gemini_timeline
  dsimp only
  rcases h9 : pm (buildPrompt d l) with e | t
  · rcases h8 : fm (buildPrompt d l) with e2 | t2
    · exact wf_errorDict
    · exact processText_wf
  · exact processText_wf

/-- The freshly inserted row is the one `find?` locates under its new id. -/
theorem find?_fresh {db : List ProjectRow} {row : ProjectRow}
    (hid : row.id = freshId db) :
    (db ++ [row]).find? (fun r2 => r2.id == freshId db) = some row := by
  rw [List.find?_append]
  have hnone : db.find? (fun r2 => r2.id == freshId db) = none :=
    List.find?_eq_none.mpr (fun x hx => by
      have := mem_id_lt_freshId hx
      simp only [beq_iff_eq]
      omega)
  rw [hnone]
  simp [List.find?, hid]

/-- Looking up a fresh row as its owner deserializes the stored blob. -/
theorem get_project_owner (db : List ProjectRow) (title : JsonVal)
    (data : List Char) (uid : Nat) :
    get_project (db ++ [⟨freshId db, title, data, uid⟩]) uid (freshId db) =
      (match jsonLoads data with
       | .ok v => .ok200 v
       | .error e => .parseFail e) := by
  simp only [get_project, find?_fresh
    (show (⟨freshId db, title, data, uid⟩ : ProjectRow).id = freshId db
      from rfl)]
  rw [if_neg (by simp)]

/-- Looking up a fresh row as any other user is rejected with 403. -/
theorem get_project_other (db : List ProjectRow) (title : JsonVal)
    (data : List Char) (uid uid2 : Nat) (hne : uid2 ≠ uid) :
    get_project (db ++ [⟨freshId db, title, data, uid⟩]) uid2 (freshId db) =
      .forbidden (errorDict unauthorizedMsg) := by
  simp only [get_project, find?_fresh
    (show (⟨freshId db, title, data, uid⟩ : ProjectRow).id = freshId db
      from rfl)]
  rw [if_pos (fun he => hne he.symm)]

/-- Claim C8: when an authenticated user's `/generate` call produces a
result without the top-level `"error"` key, the handler persists
`json.dumps(result)` as a fresh row owned by that user; a later
`get_project` on the new row's id returns exactly the stored object
(`json.loads` after `json.dumps` round-trips to an equal value), and every
user other than the owner receives the 403 `{"error": "Unauthorized"}`
response instead of the data. -/
theorem C8_persist_roundtrip_owner
    (db : List ProjectRow) (uid : Nat)
    (pm fm : List Char → Except (List Char) (List Char))
    (dc : Char) (dr : List Char) (lc : Char) (lr : List Char)
    (fs : List (List Char × JsonVal))
    (hres : generate_gemini_timeline pm fm (dc :: dr) (lc :: lr) = .jobj fs)
    (herr : hasKeyB fs errKey = false) :
    ∃ title,
      generate db (some uid) pm fm (some (dc :: dr)) (some (lc :: lr)) =
        .ok (⟨200, .jobj fs⟩,
          db ++ [⟨freshId db, title, jsonDumps (.jobj fs), uid⟩]) ∧
      get_project (db ++ [⟨freshId db, title, jsonDumps (.jobj fs), uid⟩])
        uid (freshId db) = .ok200 (.jobj fs) ∧
      (∀ uid2, uid2 ≠ uid →
        get_project (db ++ [⟨freshId db, title, jsonDumps (.jobj fs), uid⟩])
          uid2 (freshId db) = .forbidden (errorDict unauthorizedMsg)) := by
  have hwf : wfVal (.jobj fs) = true := by
    rw [← hres]
    exact generate_result_wf pm fm (dc :: dr) (lc :: lr)
  refine ⟨((fs.find? (fun p => p.1 == projectTitleKey)).map
    (fun p => p.2)).getD untitledProject, ?_, ?_, ?_⟩
  · simp only [generate, hres, pyIn, herr, pyGet]
  · rw [get_project_owner db _ (jsonDumps (.jobj fs)) uid,
      jsonLoads_dumps hwf]
  · intro uid2 hne
    exact get_project_other db _ (jsonDumps (.jobj fs)) uid uid2 hne

/-- Witness for C8 at a concrete input: a model that answers `{}` for
user 1 over an empty table. -/
theorem C8_persist_roundtrip_owner_witness :
    ∃ title,
      generate [] (some 1) (okModel "\x7b\x7d".toList) (okModel "\x7b\x7d".toList)
        (some ('d' :: [])) (some ('l' :: [])) =
        .ok (⟨200, .jobj []⟩,
          [] ++ [⟨freshId [], title, jsonDumps (.jobj []), 1⟩]) ∧
      get_project ([] ++ [⟨freshId [], title, jsonDumps (.jobj []), 1⟩])
        1 (freshId []) = .ok200 (.jobj []) ∧
      (∀ uid2, uid2 ≠ 1 →
        get_project ([] ++ [⟨freshId [], title, jsonDumps (.jobj []), 1⟩])
          uid2 (freshId []) = .forbidden (errorDict unauthorizedMsg)) :=
  C8_persist_roundtrip_owner [] 1 (okModel "\x7b\x7d".toList)
    (okModel "\x7b\x7d".toList) 'd' [] 'l' [] [] (by rfl) (by rfl)
